import Mathlib

/-!
Verification of the simpatico source fragment: shallow embeddings of
`TextFileOArchive` (src/util/archives/TextFileOArchive.h),
`SpCell` (src/ddMd/sp/neighbor/SpCell.h),
`MdCoulombPotential` (src/mcMd/potentials/coulomb/MdCoulombPotential.cpp), and
`FineEwaldCoulombPotential`
(src/mcMd/attic/potentials/coulomb/FineEwaldCoulombPotential.cpp),
together with theorems settling the specification claims.

C++ `double` values are modelled as rationals (`ℚ`); machine pointers as
integers with `0` as the null pointer; transcendental library calls
(`exp`, `cos`, `sin`) are abstracted as explicit function parameters, so
every definition stays executable.
-/

namespace Simpatico

/-! ## TextFileOArchive (src/util/archives/TextFileOArchive.h)

The archive writes through a bound `std::ostream`.  We model the stream by
its persistent format state (the `scientific` float-field bit set by
`setf(std::ios::scientific)`, the precision, and the one-shot field width)
plus the list of output events already emitted.  Each formatted insertion
records the format state in effect at that insertion and, as in C++
iostreams, resets the field width to zero; `std::endl` emits a line break
and changes no format state. -/

/-- A value inserted into the text stream (the closed set of primitive
kinds the archive writes). -/
inductive Val where
  | I : ℤ → Val
  | D : ℚ → Val
  | S : String → Val
  | B : Bool → Val
deriving DecidableEq, Repr

/-- One observable output event of the stream: a formatted value insertion
(recording the scientific bit, field width and precision in effect when it
was written) or a line break from `std::endl`. -/
inductive Event where
  | val : Bool → ℕ → ℕ → Val → Event
  | endl : Event
deriving DecidableEq, Repr

/-- The modelled `std::ostream`: format state plus emitted output. A fresh
C++ stream has the scientific bit clear, width 0 and precision 6. -/
structure OStream where
  sci : Bool
  width : ℕ
  prec : ℕ
  out : List Event
deriving DecidableEq, Repr

/-- Formatted insertion `*ostreamPtr_ << data`: emits the value with the
current format state and resets the field width (C++ stream semantics). -/
def OStream.insert (st : OStream) (v : Val) : OStream :=
  { st with out := st.out ++ [Event.val st.sci st.width st.prec v], width := 0 }

/-- Models `*ostreamPtr_ << std::endl`: emits a line break, format state unchanged. -/
def OStream.endl (st : OStream) : OStream :=
  { st with out := st.out ++ [Event.endl] }

/-- Models `ostreamPtr_->setf(std::ios::scientific)`: sets the scientific bit. -/
def OStream.setfSci (st : OStream) : OStream :=
  { st with sci := true }

/-- Models `ostreamPtr_->width(n)`. -/
def OStream.setWidth (st : OStream) (n : ℕ) : OStream :=
  { st with width := n }

/-- Models `ostreamPtr_->precision(n)`. -/
def OStream.setPrec (st : OStream) (n : ℕ) : OStream :=
  { st with prec := n }

/-- Models `TextFileOArchive::pack<T>(const T&)` (generic template):
`*ostreamPtr_ << data << std::endl;`. -/
def packGeneric (st : OStream) (v : Val) : OStream :=
  (st.insert v).endl

/-- Models `TextFileOArchive::pack<double>(const double&)` (specialization):
`setf(scientific); width(25); precision(17); *ostreamPtr_ << data << std::endl;`. -/
def packDouble (st : OStream) (q : ℚ) : OStream :=
  ((((st.setfSci).setWidth 25).setPrec 17).insert (Val.D q)).endl

/-- Models `TextFileOArchive::pack<T>(const T*, int n)` (array overload):
each element followed by two spaces, then one `std::endl`. -/
def packArray (st : OStream) (vs : List Val) : OStream :=
  (vs.foldl (fun s v => (s.insert v).insert (Val.S "  ")) st).endl

/-- An operation on the archive's bound stream: a generic `pack`, a
`double` `pack`, an array `pack`, or a bare insertion by some other writer
sharing the stream. -/
inductive ArchiveOp where
  | gen : Val → ArchiveOp
  | dbl : ℚ → ArchiveOp
  | arr : List Val → ArchiveOp
  | raw : Val → ArchiveOp

/-- Run one archive operation on the stream. -/
def runOp (st : OStream) (op : ArchiveOp) : OStream :=
  match op with
  | ArchiveOp.gen v => packGeneric st v
  | ArchiveOp.dbl q => packDouble st q
  | ArchiveOp.arr vs => packArray st vs
  | ArchiveOp.raw v => st.insert v

/-- Run a sequence of archive operations. -/
def runOps (st : OStream) (ops : List ArchiveOp) : OStream :=
  ops.foldl runOp st

/-! ## SpCell (src/ddMd/sp/neighbor/SpCell.h)

The cell's private state relevant to the capacity discipline: the bound
array pointer `begin_` (an integer address, `0` playing the role of the
C++ null pointer), the live count `nAtom_`, and `atomCapacity_` (C++
`int`s, modelled as `ℤ`).  Each operation that carries an `assert` is
embedded as an `Option`-valued function returning `none` exactly when the
assertion fails (a contract violation). -/

/-- State of one `SpCell` (fields `begin_`, `nAtom_`, `atomCapacity_`,
`id_`, `isGhostSpCell_`; the neighbor-list links are not needed by the
claims about the capacity discipline). -/
structure SpCell where
  begin_ : ℤ
  nAtom_ : ℤ
  atomCapacity_ : ℤ
  id_ : ℤ
  isGhostSpCell_ : Bool
deriving DecidableEq, Repr

/-- Models `SpCell::clear()`: `begin_ = 0; nAtom_ = 0; atomCapacity_ = 0;`
(preserves the list link and ghost flag, not modelled here). -/
def SpCell.clear (c : SpCell) : SpCell :=
  { c with begin_ := 0, nAtom_ := 0, atomCapacity_ := 0 }

/-- Models `SpCell::incrementCapacity()`: `assert(begin_ == 0); ++atomCapacity_;`. -/
def SpCell.incrementCapacity (c : SpCell) : Option SpCell :=
  if c.begin_ = 0 then
    some { c with atomCapacity_ := c.atomCapacity_ + 1 }
  else
    none

/-- Models `SpCell::initialize(begin)`:
`assert(begin_ == 0); assert(nAtom_ == 0); assert(atomCapacity_ >= 0);
begin_ = begin; return (begin_ + atomCapacity_);` — returns the updated
cell together with the returned one-past-the-end address. -/
def SpCell.initialize (c : SpCell) (begin : ℤ) : Option (SpCell × ℤ) :=
  if c.begin_ = 0 ∧ c.nAtom_ = 0 ∧ 0 ≤ c.atomCapacity_ then
    some ({ c with begin_ := begin }, begin + c.atomCapacity_)
  else
    none

/-- Models `SpCell::append(atomPtr)`:
`assert(begin_ != 0); assert(nAtom_ < atomCapacity_);
begin_[nAtom_].setPtr(atomPtr); ++nAtom_;` (the store into the external
`SpCellAtom` segment is outside the modelled cell state). -/
def SpCell.append (c : SpCell) : Option SpCell :=
  if c.begin_ ≠ 0 ∧ c.nAtom_ < c.atomCapacity_ then
    some { c with nAtom_ := c.nAtom_ + 1 }
  else
    none

/-- Models `SpCell::atomCapacity()`. -/
def SpCell.atomCapacity (c : SpCell) : ℤ :=
  c.atomCapacity_

/-- Models `n` successive `incrementCapacity()` calls, threaded through `Option`. -/
def SpCell.iterIncr (c : SpCell) : ℕ → Option SpCell
  | 0 => some c
  | n + 1 => (SpCell.iterIncr c n).bind SpCell.incrementCapacity

/-- Models `n` successive `append()` calls, threaded through `Option`. -/
def SpCell.iterAppend (c : SpCell) : ℕ → Option SpCell
  | 0 => some c
  | n + 1 => (SpCell.iterAppend c n).bind SpCell.append

/-! ## MdCoulombPotential (src/mcMd/potentials/coulomb/MdCoulombPotential.cpp)

The lazily cached k-space energy and stress live in `Util::Setable`
members. -/

/-- Modelled from the spec: `Util::Setable<T>` (the container class is not
part of the supplied fragment) holds a value together with a Set/Unset
flag; `unset()` clears the flag, `set(v)` stores `v` and raises it,
`value()` reads the stored value, `isSet()` reads the flag. -/
structure Setable (α : Type) where
  value : α
  isSet : Bool
deriving DecidableEq, Repr

/-- Models `Setable::unset()`. -/
def Setable.unset {α : Type} (s : Setable α) : Setable α :=
  { s with isSet := false }

/-- Models `Setable::set(v)`. -/
def Setable.set {α : Type} (s : Setable α) (v : α) : Setable α :=
  { s with value := v, isSet := true }

/-- A symmetric 3x3 stress tensor, modelled as its nine rational entries. -/
structure Tensor where
  xx : ℚ
  xy : ℚ
  xz : ℚ
  yx : ℚ
  yy : ℚ
  yz : ℚ
  zx : ℚ
  zy : ℚ
  zz : ℚ
deriving DecidableEq, Repr

/-- State of an `MdCoulombPotential` together with the observation
apparatus of the subclass under test: `energyCompValue` /
`stressCompValue` are the quantities the subclass's `computeEnergy()` /
`computeStress()` routines would currently compute, and
`energyComputeCount` / `stressComputeCount` count invocations of those
routines (the spec's "recomputation counter in the subclass under
test"). -/
structure MdCoulombPotential where
  isInitialized_ : Bool
  hasWaves_ : Bool
  kSpaceEnergy_ : Setable ℚ
  kSpaceStress_ : Setable Tensor
  energyCompValue : ℚ
  stressCompValue : Tensor
  energyComputeCount : ℕ
  stressComputeCount : ℕ
deriving DecidableEq, Repr

/-- Models `MdCoulombPotential::unsetWaves()`: `hasWaves_ = false;`. -/
def MdCoulombPotential.unsetWaves (p : MdCoulombPotential) : MdCoulombPotential :=
  { p with hasWaves_ := false }

/-- Models `MdCoulombPotential::unsetEnergy()`: `kSpaceEnergy_.unset();`. -/
def MdCoulombPotential.unsetEnergy (p : MdCoulombPotential) : MdCoulombPotential :=
  { p with kSpaceEnergy_ := p.kSpaceEnergy_.unset }

/-- Models `MdCoulombPotential::unsetStress()`: `kSpaceStress_.unset();`. -/
def MdCoulombPotential.unsetStress (p : MdCoulombPotential) : MdCoulombPotential :=
  { p with kSpaceStress_ := p.kSpaceStress_.unset }

/-- Modelled from the spec: the pure-virtual `computeEnergy()` implemented
by the subclass under test recomputes the k-space energy and stores it in
the `kSpaceEnergy_` cache ("triggers a recompute via the subclass's
energy/stress routines, then transitions to Set"); the recomputation
counter records the call. -/
def MdCoulombPotential.computeEnergy (p : MdCoulombPotential) : MdCoulombPotential :=
  { p with kSpaceEnergy_ := p.kSpaceEnergy_.set p.energyCompValue,
           energyComputeCount := p.energyComputeCount + 1 }

/-- Modelled from the spec: the pure-virtual `computeStress()` implemented
by the subclass under test recomputes the k-space stress and stores it in
the `kSpaceStress_` cache; the recomputation counter records the call. -/
def MdCoulombPotential.computeStress (p : MdCoulombPotential) : MdCoulombPotential :=
  { p with kSpaceStress_ := p.kSpaceStress_.set p.stressCompValue,
           stressComputeCount := p.stressComputeCount + 1 }

/-- Models `MdCoulombPotential::kSpaceEnergy()`:
`if (!kSpaceEnergy_.isSet()) { computeEnergy(); } return kSpaceEnergy_.value();`
— returns the value together with the (possibly updated) object state. -/
def MdCoulombPotential.kSpaceEnergy (p : MdCoulombPotential) : ℚ × MdCoulombPotential :=
  let p' := if p.kSpaceEnergy_.isSet then p else p.computeEnergy
  (p'.kSpaceEnergy_.value, p')

/-- Models `MdCoulombPotential::kSpaceStress()`:
`if (!kSpaceStress_.isSet()) { computeStress(); } return kSpaceStress_.value();`. -/
def MdCoulombPotential.kSpaceStress (p : MdCoulombPotential) : Tensor × MdCoulombPotential :=
  let p' := if p.kSpaceStress_.isSet then p else p.computeStress
  (p'.kSpaceStress_.value, p')

/-! ## FineEwaldCoulombPotential
(src/mcMd/attic/potentials/coulomb/FineEwaldCoulombPotential.cpp)

`Util::Vector` components are modelled as rationals.  The transcendental
`exp` used for the Green's-function weight is abstracted as an explicit
function parameter `eexp : ℚ → ℚ` so that the definitions stay
executable; the claims are about the *argument* handed to `exp` and the
surrounding arithmetic, which the abstraction preserves exactly. -/

/-- A `Util::Vector` (three Cartesian components). -/
structure Vec3 where
  x : ℚ
  y : ℚ
  z : ℚ
deriving DecidableEq, Repr

/-- Vector addition. -/
def Vec3.add (u v : Vec3) : Vec3 :=
  ⟨u.x + v.x, u.y + v.y, u.z + v.z⟩

instance : Add Vec3 := ⟨Vec3.add⟩

/-- Scalar multiple (`Vector::multiply(v, s)`). -/
def Vec3.smul (s : ℚ) (v : Vec3) : Vec3 :=
  ⟨s * v.x, s * v.y, s * v.z⟩

/-- The zero vector (`Vector::zero()`). -/
def Vec3.zero : Vec3 := ⟨0, 0, 0⟩

/-- Dot product (`Vector::dot`). -/
def Vec3.dot (u v : Vec3) : ℚ :=
  u.x * v.x + u.y * v.y + u.z * v.z

/-- Models `Vector::square()` — squared magnitude. -/
def Vec3.square (v : Vec3) : ℚ :=
  v.dot v

/-- The list of integers `lo, lo+1, ..., hi` (empty when `hi < lo`):
the index set of a C++ loop `for (k = lo; k <= hi; ++k)`. -/
def intRange (lo hi : ℤ) : List ℤ :=
  (List.range (hi + 1 - lo).toNat).map (fun (n : ℕ) => lo + (n : ℤ))

/-- One integer wavevector (`Util::IntVector`). -/
abbrev Wave := ℤ × ℤ × ℤ

/-- The squared magnitude `ksq = |k0·b0 + k1·b1 + k2·b2|²` of the
wavevector with integer indices `(k0,k1,k2)`, `b0,b1,b2` the reciprocal
basis vectors.  In `makeWaves` the vector `q` is accumulated
incrementally (`q0 += b0` etc.); over exact arithmetic the accumulated
`q` at indices `(k0,k1,k2)` equals `k0·b0 + k1·b1 + k2·b2`. -/
def ksqOf (b0 b1 b2 : Vec3) (k0 k1 k2 : ℤ) : ℚ :=
  ((Vec3.smul (k0 : ℚ) b0).add ((Vec3.smul (k1 : ℚ) b1).add (Vec3.smul (k2 : ℚ) b2))).square

/-- Models `mink1 = (k[0] == 0 ? 0 : -maxK[1])`. -/
def mink1 (maxK1 : ℤ) (k0 : ℤ) : ℤ :=
  if k0 = 0 then 0 else -maxK1

/-- Models `mink2 = (k[0] == 0 && k[1] == 0 ? 1 : -maxK[2])`. -/
def mink2 (maxK2 : ℤ) (k0 k1 : ℤ) : ℤ :=
  if k0 = 0 ∧ k1 = 0 then 1 else -maxK2

/-- The inner (`k[2]`) loop of `makeWaves`: the kept third indices for a
fixed `(k0, k1)` — those `k2` in `[mink2, maxK2]` with
`ksq <= kCutoffSq`. -/
def keptK2s (b0 b1 b2 : Vec3) (kCutoffSq : ℚ) (maxK2 : ℤ) (k0 k1 : ℤ) : List ℤ :=
  (intRange (mink2 maxK2 k0 k1) maxK2).filter
    (fun k2 => ksqOf b0 b1 b2 k0 k1 k2 ≤ kCutoffSq)

/-- The wave list built by the triple loop of
`FineEwaldCoulombPotential::makeWaves`: `k[0]` runs over `[0, maxK0]`,
`k[1]` over `[mink1, maxK1]`, `k[2]` over `[mink2, maxK2]`, and a triple
is appended iff `ksq <= kCutoffSq`. -/
def makeWavesList (b0 b1 b2 : Vec3) (kCutoffSq : ℚ) (maxK0 maxK1 maxK2 : ℤ) :
    List Wave :=
  (intRange 0 maxK0).flatMap (fun k0 =>
    (intRange (mink1 maxK1 k0) maxK1).flatMap (fun k1 =>
      (keptK2s b0 b1 b2 kCutoffSq maxK2 k0 k1).map (fun k2 => (k0, k1, k2))))

/-- The parallel `ksq_` array of `makeWaves`: the squared magnitude
appended alongside each kept wave. -/
def makeWavesKsq (b0 b1 b2 : Vec3) (kCutoffSq : ℚ) (maxK0 maxK1 maxK2 : ℤ) :
    List ℚ :=
  (makeWavesList b0 b1 b2 kCutoffSq maxK0 maxK1 maxK2).map
    (fun k => ksqOf b0 b1 b2 k.1 k.2.1 k.2.2)

/-- The parallel `g_` array of `makeWaves`: for each kept wave the code
appends `exp(prefactor*ksq)/ksq` where `prefactor = -0.25/alpha_/alpha_`.
The library `exp` is abstracted as the parameter `eexp`. -/
def makeWavesG (eexp : ℚ → ℚ) (alpha : ℚ) (b0 b1 b2 : Vec3) (kCutoffSq : ℚ)
    (maxK0 maxK1 maxK2 : ℤ) : List ℚ :=
  (makeWavesList b0 b1 b2 kCutoffSq maxK0 maxK1 maxK2).map
    (fun k =>
      let ksq := ksqOf b0 b1 b2 k.1 k.2.1 k.2.2
      eexp (-0.25 / alpha / alpha * ksq) / ksq)

/-- The half-space rule claimed for stored waves: `k[0] >= 0`; when
`k[0] = 0` then `k[1] >= 0`; when `k[0] = 0` and `k[1] = 0` then
`k[2] >= 1`. -/
def halfSpace (k : Wave) : Prop :=
  0 ≤ k.1 ∧ (k.1 = 0 → 0 ≤ k.2.1) ∧ (k.1 = 0 → k.2.1 = 0 → 1 ≤ k.2.2)

instance (k : Wave) : Decidable (halfSpace k) := by
  unfold halfSpace
  infer_instance

/-- Membership of `k` in the enumerated index box
`[0,maxK0] × [-maxK1,maxK1] × [-maxK2,maxK2]`. -/
def inBox (maxK0 maxK1 maxK2 : ℤ) (k : Wave) : Prop :=
  0 ≤ k.1 ∧ k.1 ≤ maxK0 ∧ -maxK1 ≤ k.2.1 ∧ k.2.1 ≤ maxK1 ∧
    -maxK2 ≤ k.2.2 ∧ k.2.2 ≤ maxK2

instance (maxK0 maxK1 maxK2 : ℤ) (k : Wave) :
    Decidable (inBox maxK0 maxK1 maxK2 k) := by
  unfold inBox
  infer_instance

/-- Models `FineEwaldCoulombPotential::kspaceEnergy` after `computeKSpaceCharge`
has filled `rho_`: iterates `i` over the waves, accumulating
`total += (x*x + y*y)*g_[i]` with `x = rho_[i].real()`,
`y = rho_[i].imag()`; then `total *= 0.5/(epsilon_*volume)` and the
function returns `2.0 * total`.  `gs` is the `g_` array and `rhos` the
`rho_` array (a complex number as a real/imaginary pair). -/
def kspaceEnergy (epsilon volume : ℚ) (gs : List ℚ) (rhos : List (ℚ × ℚ)) : ℚ :=
  let total :=
    ((gs.zip rhos).foldl
      (fun acc p => acc + (p.2.1 * p.2.1 + p.2.2 * p.2.2) * p.1) 0)
      * (0.5 / (epsilon * volume))
  2.0 * total

/-! ### The second pass of `makeWaves`: `range0_`, `range1_`, `range2_`
and the "Wave bounds incompatible" consistency check. -/

/-- Replace the last element of a list by `f` of it (the effect of a C++
write through the running index `r1`/`r2`, which always points at the
last appended element). -/
def updateLast {α : Type} (f : α → α) : List α → List α
  | [] => []
  | [a] => [f a]
  | a :: b :: rest => a :: updateLast f (b :: rest)

/-- Models `range1_[r1][1]` where `r1` is the running (last) index; the default
is irrelevant because the code only reads it after at least one append. -/
def lastSnd (l : List (ℤ × ℤ)) : ℤ :=
  match l.getLast? with
  | some p => p.2
  | none => 0

/-- The mutable state of the range-finding loop: `range0_[1]` (the upper
bound of dimension 0; `range0_[0]` is fixed at `0`), and the growing
`range1_` and `range2_` interval arrays. -/
structure RangeState where
  r0hi : ℤ
  r1 : List (ℤ × ℤ)
  r2 : List (ℤ × ℤ)
deriving DecidableEq, Repr

/-- One iteration of the range-finding loop of `makeWaves` on wave
`k = waves_[i]`:
if `k[0] > range0_[1]` start a new `range1_` and `range2_` interval and
record the new dimension-0 upper bound; else if `k[1] > range1_[r1][1]`
extend the current `range1_` interval and start a new `range2_` interval;
else extend the current `range2_` interval. -/
def rangeStep (s : RangeState) (k : Wave) : RangeState :=
  if s.r0hi < k.1 then
    ⟨k.1, s.r1 ++ [(k.2.1, k.2.1)], s.r2 ++ [(k.2.2, k.2.2)]⟩
  else if lastSnd s.r1 < k.2.1 then
    ⟨s.r0hi, updateLast (fun p => (p.1, k.2.1)) s.r1, s.r2 ++ [(k.2.2, k.2.2)]⟩
  else
    ⟨s.r0hi, s.r1, updateLast (fun p => (p.1, k.2.2)) s.r2⟩

/-- Initial state: `range0_[0] = 0; range0_[1] = -1;` with empty `range1_`
and `range2_`. -/
def rangeInit : RangeState := ⟨-1, [], []⟩

/-- The range-finding loop over the generated waves. -/
def rangesOf (ws : List Wave) : RangeState :=
  ws.foldl rangeStep rangeInit

/-- The bound check of `makeWaves`: `nItems` sums
`range2_[r2][1] - range2_[r2][0] + 1` over all `range2_` intervals. -/
def nItems (s : RangeState) : ℤ :=
  (s.r2.map (fun p => p.2 - p.1 + 1)).sum

/-- Models `makeWaves` from wave generation through the bound check: generates
the waves, runs the range-finding loop, and signals the fatal
`UTIL_THROW("Wave bounds incompatible with number of waves constructed.")`
iff `nItems != waves_.size()`. -/
def makeWavesChecked (b0 b1 b2 : Vec3) (kCutoffSq : ℚ)
    (maxK0 maxK1 maxK2 : ℤ) : Except String (List Wave × RangeState) :=
  let ws := makeWavesList b0 b1 b2 kCutoffSq maxK0 maxK1 maxK2
  let s := rangesOf ws
  if nItems s ≠ (ws.length : ℤ) then
    Except.error "Wave bounds incompatible with number of waves constructed."
  else
    Except.ok (ws, s)

/-! ### Grouped view of the wave enumeration (proof infrastructure for
the bound check): the wave list is the concatenation, over the `(k0,k1)`
index pairs in enumeration order, of the per-pair kept `k2` runs. -/

/-- The waves of one `(k0, k1)` group, given as key pair plus kept third
indices. -/
def groupWaves (t : ℤ × ℤ × List ℤ) : List Wave :=
  t.2.2.map (fun c => (t.1, t.2.1, c))

/-- Strict lexicographic order on `(k0, k1)` index pairs. -/
def lexPair (p q : ℤ × ℤ) : Prop :=
  p.1 < q.1 ∨ (p.1 = q.1 ∧ p.2 < q.2)

/-- Strict lexicographic order on the keys of two groups. -/
def lexLtKey (t u : ℤ × ℤ × List ℤ) : Prop :=
  t.1 < u.1 ∨ (t.1 = u.1 ∧ t.2.1 < u.2.1)

/-- The `(k0, k1)` pairs visited by the two outer loops of `makeWaves`,
in enumeration order. -/
def pairList (maxK0 maxK1 : ℤ) : List (ℤ × ℤ) :=
  (intRange 0 maxK0).flatMap (fun k0 =>
    (intRange (mink1 maxK1 k0) maxK1).map (fun k1 => (k0, k1)))

/-- The non-empty `(k0, k1)` groups of the wave enumeration, in order. -/
def groupsOf (b0 b1 b2 : Vec3) (kCutoffSq : ℚ) (maxK0 maxK1 maxK2 : ℤ) :
    List (ℤ × ℤ × List ℤ) :=
  ((pairList maxK0 maxK1).map
      (fun p => (p.1, p.2, keptK2s b0 b1 b2 kCutoffSq maxK2 p.1 p.2))).filter
    (fun t => !t.2.2.isEmpty)

/-! ### Array reservation bookkeeping of `makeWaves` (lines 87-114). -/

/-- Modelled from the spec: the `Util` growable-array containers
(`GArray`/`GStack`) holding the wave data are not part of the supplied
fragment; a fresh array has capacity 0, `reserve(n)` allocates capacity
`n`, and `clear()` resets the element count while keeping the
allocation. -/
structure GArr where
  capacity : ℕ
  size : ℕ
deriving DecidableEq, Repr

/-- Models `GArray::reserve(n)`. -/
def GArr.reserve (a : GArr) (n : ℕ) : GArr :=
  { a with capacity := n }

/-- Models `GArray::clear()`. -/
def GArr.clear (a : GArr) : GArr :=
  { a with size := 0 }

/-- The nine per-wave / per-axis arrays whose reservation `makeWaves`
manages: `waves_`, `ksq_`, `g_`, `rho_`, `range1_`, `range2_`, `fexp0_`,
`fexp1_`, `fexp2_`. -/
structure EwaldArrays where
  waves : GArr
  ksq : GArr
  g : GArr
  rho : GArr
  range1 : GArr
  range2 : GArr
  fexp0 : GArr
  fexp1 : GArr
  fexp2 : GArr
deriving DecidableEq, Repr

/-- The freshly constructed arrays (all capacities 0). -/
def EwaldArrays.fresh : EwaldArrays :=
  ⟨⟨0, 0⟩, ⟨0, 0⟩, ⟨0, 0⟩, ⟨0, 0⟩, ⟨0, 0⟩, ⟨0, 0⟩, ⟨0, 0⟩, ⟨0, 0⟩, ⟨0, 0⟩⟩

/-- The reservation/clearing phase of `makeWaves` (lines 87-114): when
`waves_.capacity() == 0` reserve every array from this call's `maxK`
values, with
`capacity = ((2*maxK[0]+1) * (2*maxK[1]+1) * (2*maxK[2]+1) - 1)/2` for
the four per-wave arrays; otherwise clear every array without
re-reserving.  The second component records whether this call reserved. -/
def makeWavesReservePhase (maxK0 maxK1 maxK2 : ℕ) (a : EwaldArrays) :
    EwaldArrays × Bool :=
  if a.waves.capacity = 0 then
    let capacity := ((2 * maxK0 + 1) * (2 * maxK1 + 1) * (2 * maxK2 + 1) - 1) / 2
    (⟨a.waves.reserve capacity, a.ksq.reserve capacity, a.g.reserve capacity,
      a.rho.reserve capacity,
      a.range1.reserve (maxK0 + 1),
      a.range2.reserve ((maxK0 + 1) * (2 * maxK1 + 1)),
      a.fexp0.reserve (maxK0 + 1),
      a.fexp1.reserve (2 * maxK1 + 1),
      a.fexp2.reserve (2 * maxK2 + 1)⟩, true)
  else
    (⟨a.waves.clear, a.ksq.clear, a.g.clear, a.rho.clear,
      a.range1.clear, a.range2.clear,
      a.fexp0.clear, a.fexp1.clear, a.fexp2.clear⟩, false)

/-! ### `addKSpaceForces` (lines 309-411).

Complex numbers (`DCMPLX`) are real/imaginary pairs of rationals.  The
phase factor `exp(TwoPiIm * x)` is abstracted as a function parameter
`cexp : ℚ → Cplx`, and the boundary's Cartesian-to-generalized transform
as `cartToGen : Vec3 → Vec3`; the remaining arithmetic (the incremental
phase-table build, the nested range walk, the scaling and the basis
transform) is embedded exactly.  The routine first recomputes `rho_` via
`computeKSpaceCharge()`; here the resulting Fourier modes are the `rho`
argument. -/

/-- A complex number as a real/imaginary pair. -/
abbrev Cplx := ℚ × ℚ

/-- Complex multiplication. -/
def cmul (u v : Cplx) : Cplx :=
  (u.1 * v.1 - u.2 * v.2, u.1 * v.2 + u.2 * v.1)

/-- The phase-table build
`f[0] = e0; de = step; for (i = 1; i < n; ++i) f[i] = f[i-1] * de;`:
returns the table `[e0, e0*de, e0*de², ...]` of length `n`. -/
def iterMul (e0 de : Cplx) : ℕ → List Cplx
  | 0 => []
  | n + 1 => e0 :: iterMul (cmul e0 de) de n

/-- The charge-negligibility threshold `EPS(1.0E-10)`. -/
def EPS : ℚ := 1 / 10000000000

/-- Models `charge = (*atomTypesPtr_)[type].charge()`: look up the charge of an
atom type in the shared atom-type table. -/
def chargeOf (atomTypes : List ℚ) (t : ℕ) : ℚ :=
  atomTypes.getD t 0

/-- The nested wave walk of `addKSpaceForces`: with running indices
`r1`, `r2`, `i` initialized to `-1` and `fg` zeroed, loop `i0` over
`range0`, `i1` over `range1_[r1]`, `i2` over `range2_[r2]`, and for each
visited wave accumulate
`df = (i0,i1,i2) * g_[i] * (e2.real()*rho_[i].imag() - e2.imag()*rho_[i].real())`
into `fg`, where `e2 = fexp0[i0-base0] * fexp1[i1-base1] * fexp2[i2-base2]`. -/
def forceLoop (fexp0 fexp1 fexp2 : List Cplx) (base0 base1 base2 : ℤ)
    (range0 : ℤ × ℤ) (range1 range2 : List (ℤ × ℤ))
    (g : List ℚ) (rho : List Cplx) : Vec3 :=
  let st :=
    (intRange range0.1 range0.2).foldl
      (fun (st : ℤ × ℤ × ℤ × Vec3) i0 =>
        let e0 := fexp0.getD (i0 - base0).toNat (0, 0)
        let r1 := st.1 + 1
        let p1 := range1.getD r1.toNat (0, 0)
        let inner :=
          (intRange p1.1 p1.2).foldl
            (fun (st2 : ℤ × ℤ × Vec3) i1 =>
              let e1 := cmul e0 (fexp1.getD (i1 - base1).toNat (0, 0))
              let r2 := st2.1 + 1
              let p2 := range2.getD r2.toNat (0, 0)
              let inner2 :=
                (intRange p2.1 p2.2).foldl
                  (fun (st3 : ℤ × Vec3) i2 =>
                    let e2 := cmul e1 (fexp2.getD (i2 - base2).toNat (0, 0))
                    let i := st3.1 + 1
                    let df := Vec3.smul
                      (g.getD i.toNat 0 *
                        ((e2.1 * (rho.getD i.toNat (0, 0)).2) -
                          (e2.2 * (rho.getD i.toNat (0, 0)).1)))
                      ⟨(i0 : ℚ), (i1 : ℚ), (i2 : ℚ)⟩
                    (i, st3.2 + df))
                  (st2.2.1, st2.2.2)
              (r2, inner2.1, inner2.2))
            (st.2.1, st.2.2.1, st.2.2.2)
        (r1, inner.1, inner.2.1, inner.2.2))
      ((-1 : ℤ), (-1 : ℤ), (-1 : ℤ), Vec3.zero)
  st.2.2.2

/-- One particle: Cartesian position, force accumulator, atom type id. -/
structure EwaldParticle where
  position : Vec3
  force : Vec3
  typeId : ℕ
deriving DecidableEq, Repr

/-- The per-particle body of `addKSpaceForces`: look up the charge; if
`fabs(charge) > EPS`, transform the position to generalized coordinates,
tabulate the three per-axis phase tables (`fexp0_[0] =
exp(TwoPiIm*rg[0]*base0_)`, each later entry the previous times
`exp(TwoPiIm*rg[0])`, and likewise for the other axes), accumulate the
generalized force `fg` by the nested wave walk, scale it by
`charge * prefactor` with `prefactor = -2.0/(epsilon_*volume)`, transform
to Cartesian coordinates through the reciprocal basis vectors
(`df.multiply(b[j], fg[j]); force += df;` for each `j`), and add into the
particle's force; otherwise leave the particle untouched. -/
def addKSpaceForcesAtom (cexp : ℚ → Cplx) (cartToGen : Vec3 → Vec3)
    (b0 b1 b2 : Vec3) (epsilon volume : ℚ) (base0 base1 base2 : ℤ)
    (n0 n1 n2 : ℕ) (range0 : ℤ × ℤ) (range1 range2 : List (ℤ × ℤ))
    (g : List ℚ) (rho : List Cplx) (atomTypes : List ℚ)
    (p : EwaldParticle) : EwaldParticle :=
  let charge := chargeOf atomTypes p.typeId
  let prefactor := -2.0 / (epsilon * volume)
  if EPS < |charge| then
    let rg := cartToGen p.position
    let fexp0 := iterMul (cexp (rg.x * (base0 : ℚ))) (cexp rg.x) n0
    let fexp1 := iterMul (cexp (rg.y * (base1 : ℚ))) (cexp rg.y) n1
    let fexp2 := iterMul (cexp (rg.z * (base2 : ℚ))) (cexp rg.z) n2
    let fg := forceLoop fexp0 fexp1 fexp2 base0 base1 base2
      range0 range1 range2 g rho
    let fgScaled := Vec3.smul (charge * prefactor) fg
    { p with force :=
        ((p.force + Vec3.smul fgScaled.x b0) + Vec3.smul fgScaled.y b1) +
          Vec3.smul fgScaled.z b2 }
  else
    p

/-- The generalized k-space force a particle at Cartesian position `pos`
accumulates in the nested wave walk of `addKSpaceForces` — the value of
`fg` before the `charge*prefactor` scaling and the Cartesian transform. -/
def kspaceGenForce (cexp : ℚ → Cplx) (cartToGen : Vec3 → Vec3)
    (base0 base1 base2 : ℤ) (n0 n1 n2 : ℕ) (range0 : ℤ × ℤ)
    (range1 range2 : List (ℤ × ℤ)) (g : List ℚ) (rho : List Cplx)
    (pos : Vec3) : Vec3 :=
  let rg := cartToGen pos
  forceLoop (iterMul (cexp (rg.x * (base0 : ℚ))) (cexp rg.x) n0)
    (iterMul (cexp (rg.y * (base1 : ℚ))) (cexp rg.y) n1)
    (iterMul (cexp (rg.z * (base2 : ℚ))) (cexp rg.z) n2)
    base0 base1 base2 range0 range1 range2 g rho

/-- Models `FineEwaldCoulombPotential::addKSpaceForces`: the species/molecule/
atom loops apply the per-particle body to every particle of the system. -/
def addKSpaceForces (cexp : ℚ → Cplx) (cartToGen : Vec3 → Vec3)
    (b0 b1 b2 : Vec3) (epsilon volume : ℚ) (base0 base1 base2 : ℤ)
    (n0 n1 n2 : ℕ) (range0 : ℤ × ℤ) (range1 range2 : List (ℤ × ℤ))
    (g : List ℚ) (rho : List Cplx) (atomTypes : List ℚ)
    (ps : List EwaldParticle) : List EwaldParticle :=
  ps.map (addKSpaceForcesAtom cexp cartToGen b0 b1 b2 epsilon volume
    base0 base1 base2 n0 n1 n2 range0 range1 range2 g rho atomTypes)

/-! ### Sample states used as concrete inputs. -/

/-- The zero tensor, used as a sample stress value. -/
def sampleTensor : Tensor := ⟨0, 0, 0, 0, 0, 0, 0, 0, 0⟩

/-- A sample potential whose caches are both Unset. -/
def samplePotUnset : MdCoulombPotential :=
  { isInitialized_ := true, hasWaves_ := true,
    kSpaceEnergy_ := ⟨0, false⟩, kSpaceStress_ := ⟨sampleTensor, false⟩,
    energyCompValue := 7, stressCompValue := sampleTensor,
    energyComputeCount := 0, stressComputeCount := 0 }

/-- A sample potential whose caches are both Set. -/
def samplePotSet : MdCoulombPotential :=
  { isInitialized_ := true, hasWaves_ := true,
    kSpaceEnergy_ := ⟨3, true⟩, kSpaceStress_ := ⟨sampleTensor, true⟩,
    energyCompValue := 7, stressCompValue := sampleTensor,
    energyComputeCount := 1, stressComputeCount := 1 }

/-- A sample cell in an arbitrary pre-`clear` state. -/
def sampleCell : SpCell :=
  { begin_ := 9, nAtom_ := 4, atomCapacity_ := 6, id_ := 2,
    isGhostSpCell_ := false }

/-!
# Theorems
-/

/-! ## C7 / C10: TextFileOArchive -/

/-- C7: `TextFileOArchive::pack` of a double-precision value writes it to
the bound output stream in scientific notation (the scientific bit is in
effect at the insertion) with field width 25 and precision 17, followed
by exactly one line break, and writes nothing else: the stream's output
is extended by exactly that value event and one line break. -/
theorem packDouble_writes_sci_w25_p17 (st : OStream) (q : ℚ) :
    (packDouble st q).out =
      st.out ++ [Event.val true 25 17 (Val.D q), Event.endl] := by
  simp [packDouble, OStream.insert, OStream.endl, OStream.setfSci,
    OStream.setWidth, OStream.setPrec]

/-- After any operation from a stream state with the scientific bit set,
precision 17 and width 0, those three hold again (helper). -/
theorem runOp_format_inv (op : ArchiveOp) (st : OStream)
    (h1 : st.sci = true) (h2 : st.prec = 17) (h3 : st.width = 0) :
    (runOp st op).sci = true ∧ (runOp st op).prec = 17 ∧
      (runOp st op).width = 0 := by
  cases op with
  | gen v =>
      simp [runOp, packGeneric, OStream.insert, OStream.endl, h1, h2]
  | dbl q =>
      simp [runOp, packDouble, OStream.insert, OStream.endl,
        OStream.setfSci, OStream.setWidth, OStream.setPrec]
  | arr vs =>
      have key : ∀ (ws : List Val) (s : OStream), s.sci = true →
          s.prec = 17 →
          (ws.foldl (fun s v => (s.insert v).insert (Val.S "  ")) s).sci = true ∧
          (ws.foldl (fun s v => (s.insert v).insert (Val.S "  ")) s).prec = 17 ∧
          ((ws.foldl (fun s v => (s.insert v).insert (Val.S "  ")) s).width = 0 ∨
            (ws.foldl (fun s v => (s.insert v).insert (Val.S "  ")) s).width = s.width) := by
        intro ws
        induction ws with
        | nil => intro s hs hp; exact ⟨hs, hp, Or.inr rfl⟩
        | cons w ws ih =>
            intro s hs hp
            have := ih ((s.insert w).insert (Val.S "  "))
              (by simp [OStream.insert, hs]) (by simp [OStream.insert, hp])
            refine ⟨this.1, this.2.1, ?_⟩
            rcases this.2.2 with h | h
            · exact Or.inl h
            · exact Or.inl (by simpa [OStream.insert] using h)
      have k := key vs st h1 h2
      refine ⟨?_, ?_, ?_⟩
      · simpa [runOp, packArray, OStream.endl] using k.1
      · simpa [runOp, packArray, OStream.endl] using k.2.1
      · rcases k.2.2 with h | h
        · simpa [runOp, packArray, OStream.endl] using h
        · simp only [runOp, packArray, OStream.endl]
          rw [h, h3]
  | raw v =>
      simp [runOp, OStream.insert, h1, h2]

/-- Helper: the format invariant is preserved by any operation sequence. -/
theorem runOps_format_inv (ops : List ArchiveOp) (st : OStream)
    (h1 : st.sci = true) (h2 : st.prec = 17) (h3 : st.width = 0) :
    (runOps st ops).sci = true ∧ (runOps st ops).prec = 17 ∧
      (runOps st ops).width = 0 := by
  induction ops generalizing st with
  | nil => exact ⟨h1, h2, h3⟩
  | cons op ops ih =>
      have h := runOp_format_inv op st h1 h2 h3
      simpa [runOps, List.foldl_cons] using ih (runOp st op) h.1 h.2.1 h.2.2

/-- C10: `pack` of a double sets the scientific flag and precision 17 on
the stream and never restores the previous settings, while width 25
applies only to the immediately following insertion (the width is back to
0 as soon as the double has been inserted).  Hence after the first double
is packed, under any further sequence of writes through the same stream
the scientific flag stays set, the precision stays 17 and the width stays
0, and a value then written by the generic `pack` is recorded with the
scientific flag and precision 17 but with width 0, not 25. -/
theorem packDouble_format_persists (st : OStream) (q : ℚ)
    (ops : List ArchiveOp) (v : Val) :
    ((packDouble st q).sci = true ∧ (packDouble st q).prec = 17 ∧
      (packDouble st q).width = 0) ∧
    ((runOps (packDouble st q) ops).sci = true ∧
      (runOps (packDouble st q) ops).prec = 17 ∧
      (runOps (packDouble st q) ops).width = 0) ∧
    (packGeneric (runOps (packDouble st q) ops) v).out =
      (runOps (packDouble st q) ops).out ++
        [Event.val true 0 17 v, Event.endl] := by
  have h0 : (packDouble st q).sci = true ∧ (packDouble st q).prec = 17 ∧
      (packDouble st q).width = 0 := by
    simp [packDouble, OStream.insert, OStream.endl, OStream.setfSci,
      OStream.setWidth, OStream.setPrec]
  have h1 := runOps_format_inv ops (packDouble st q) h0.1 h0.2.1 h0.2.2
  refine ⟨h0, h1, ?_⟩
  simp [packGeneric, OStream.insert, OStream.endl, h1.1, h1.2.1, h1.2.2]

/-! ## C5: MdCoulombPotential::unsetWaves -/

/-- C5 (counterexample): for a potential whose k-space energy and stress
caches are both Set, `unsetWaves()` leaves both caches Set, contradicting
the claim that after `unsetWaves()` they are no longer Set. -/
theorem unsetWaves_leaves_caches_set :
    (samplePotSet.unsetWaves).kSpaceEnergy_.isSet = true ∧
      (samplePotSet.unsetWaves).kSpaceStress_.isSet = true :=
  ⟨rfl, rfl⟩

/-- C5 (amended): `unsetWaves()` invalidates exactly the precomputed
wave/geometry state (`hasWaves_` becomes false) and leaves the cached
k-space energy and stress totals untouched — invalidating them is what
`unsetEnergy()` / `unsetStress()` do instead. -/
theorem unsetWaves_only_unsets_waves (p : MdCoulombPotential) :
    (p.unsetWaves).hasWaves_ = false ∧
    (p.unsetWaves).kSpaceEnergy_ = p.kSpaceEnergy_ ∧
    (p.unsetWaves).kSpaceStress_ = p.kSpaceStress_ ∧
    (p.unsetEnergy).kSpaceEnergy_.isSet = false ∧
    (p.unsetStress).kSpaceStress_.isSet = false :=
  ⟨rfl, rfl, rfl, rfl, rfl⟩

/-! ## C4: MdCoulombPotential caching protocol -/

/-- C4: for each cached quantity independently, reading while Unset
triggers exactly one recomputation (the counter increments by one),
transitions the cache to Set, and returns the newly computed value;
reading while Set returns the cached value with no state change; and a
second consecutive read returns the identical value with no further
recomputation. -/
theorem mdCoulomb_cache_protocol (p : MdCoulombPotential) :
    ((p.kSpaceEnergy_.isSet = false →
        (p.kSpaceEnergy).2.energyComputeCount = p.energyComputeCount + 1 ∧
        (p.kSpaceEnergy).2.kSpaceEnergy_.isSet = true ∧
        (p.kSpaceEnergy).1 = p.energyCompValue) ∧
      (p.kSpaceEnergy_.isSet = true →
        (p.kSpaceEnergy).2 = p ∧
        (p.kSpaceEnergy).1 = p.kSpaceEnergy_.value) ∧
      (p.kSpaceEnergy).2.kSpaceEnergy =
        ((p.kSpaceEnergy).1, (p.kSpaceEnergy).2)) ∧
    ((p.kSpaceStress_.isSet = false →
        (p.kSpaceStress).2.stressComputeCount = p.stressComputeCount + 1 ∧
        (p.kSpaceStress).2.kSpaceStress_.isSet = true ∧
        (p.kSpaceStress).1 = p.stressCompValue) ∧
      (p.kSpaceStress_.isSet = true →
        (p.kSpaceStress).2 = p ∧
        (p.kSpaceStress).1 = p.kSpaceStress_.value) ∧
      (p.kSpaceStress).2.kSpaceStress =
        ((p.kSpaceStress).1, (p.kSpaceStress).2)) := by
  constructor
  · by_cases h : p.kSpaceEnergy_.isSet
    · refine ⟨fun hf => by simp [h] at hf, fun _ => ?_, ?_⟩
      · simp [MdCoulombPotential.kSpaceEnergy, h]
      · simp [MdCoulombPotential.kSpaceEnergy, h]
    · refine ⟨fun _ => ?_, fun ht => absurd ht h, ?_⟩
      · simp [MdCoulombPotential.kSpaceEnergy, h,
          MdCoulombPotential.computeEnergy, Setable.set]
      · simp [MdCoulombPotential.kSpaceEnergy, h,
          MdCoulombPotential.computeEnergy, Setable.set]
  · by_cases h : p.kSpaceStress_.isSet
    · refine ⟨fun hf => by simp [h] at hf, fun _ => ?_, ?_⟩
      · simp [MdCoulombPotential.kSpaceStress, h]
      · simp [MdCoulombPotential.kSpaceStress, h]
    · refine ⟨fun _ => ?_, fun ht => absurd ht h, ?_⟩
      · simp [MdCoulombPotential.kSpaceStress, h,
          MdCoulombPotential.computeStress, Setable.set]
      · simp [MdCoulombPotential.kSpaceStress, h,
          MdCoulombPotential.computeStress, Setable.set]

/-- C4 (witness): the caching protocol evaluated at a concrete Unset
potential and a concrete Set potential. -/
theorem mdCoulomb_cache_protocol_witness :
    (samplePotUnset.kSpaceEnergy_.isSet = false ∧
      (samplePotUnset.kSpaceEnergy).2.energyComputeCount =
        samplePotUnset.energyComputeCount + 1 ∧
      (samplePotUnset.kSpaceEnergy).2.kSpaceEnergy_.isSet = true ∧
      (samplePotUnset.kSpaceEnergy).1 = samplePotUnset.energyCompValue) ∧
    (samplePotSet.kSpaceEnergy_.isSet = true ∧
      (samplePotSet.kSpaceEnergy).2 = samplePotSet ∧
      (samplePotSet.kSpaceEnergy).1 = samplePotSet.kSpaceEnergy_.value) :=
  ⟨⟨by decide, (mdCoulomb_cache_protocol samplePotUnset).1.1 (by decide)⟩,
   ⟨by decide, (mdCoulomb_cache_protocol samplePotSet).1.2.1 (by decide)⟩⟩

/-! ## C6: SpCell capacity discipline -/

/-- Helper: `n` increments from a freshly cleared cell all succeed and
accumulate the capacity. -/
theorem iterIncr_clear (c : SpCell) (n : ℕ) :
    SpCell.iterIncr (SpCell.clear c) n =
      some { SpCell.clear c with atomCapacity_ := (n : ℤ) } := by
  induction n with
  | zero => rfl
  | succ n ih =>
      simp only [SpCell.iterIncr, ih, Option.bind_some]
      simp [SpCell.incrementCapacity, SpCell.clear]

/-- Helper: from a bound cell with `nAtom_ = 0`, `k ≤ atomCapacity_`
appends all succeed and accumulate the live count. -/
theorem iterAppend_le (c : SpCell) (hb : c.begin_ ≠ 0) (h0 : c.nAtom_ = 0)
    (k : ℕ) (hk : (k : ℤ) ≤ c.atomCapacity_) :
    SpCell.iterAppend c k = some { c with nAtom_ := (k : ℤ) } := by
  induction k with
  | zero =>
      simp only [SpCell.iterAppend, Nat.cast_zero]
      rw [← h0]
  | succ k ih =>
      have hk' : (k : ℤ) ≤ c.atomCapacity_ := by push_cast at hk ⊢; omega
      simp only [SpCell.iterAppend, ih hk', Option.bind_some]
      have hlt : (k : ℤ) < c.atomCapacity_ := by push_cast at hk; omega
      simp [SpCell.append, hb, hlt]

/-- C6: for a freshly cleared `SpCell` and any `N ≥ 0`, after `N`
`incrementCapacity()` calls followed by one `initialize(begin)` (with a
non-null segment address), `atomCapacity()` equals `N` and `initialize`
returns `begin + N`; a further `incrementCapacity()` fails its
`begin_ == 0` assertion, and after `N` successful `append()` calls the
`(N+1)`-th `append()` fails its `nAtom_ < atomCapacity_` assertion. -/
theorem spCell_capacity_discipline (c : SpCell) (N : ℕ) (b : ℤ)
    (hb : b ≠ 0) :
    ∃ cS cI cA : SpCell,
      SpCell.iterIncr (SpCell.clear c) N = some cS ∧
      SpCell.atomCapacity cS = (N : ℤ) ∧
      SpCell.initialize cS b = some (cI, b + (N : ℤ)) ∧
      SpCell.atomCapacity cI = (N : ℤ) ∧
      SpCell.incrementCapacity cI = none ∧
      SpCell.iterAppend cI N = some cA ∧
      SpCell.append cA = none := by
  refine ⟨{ SpCell.clear c with atomCapacity_ := (N : ℤ) }, { SpCell.clear c with begin_ := b, atomCapacity_ := (N : ℤ) }, { SpCell.clear c with begin_ := b, nAtom_ := (N : ℤ), atomCapacity_ := (N : ℤ) }, iterIncr_clear c N, rfl, ?_, rfl, ?_, ?_, ?_⟩
  · simp [ SpCell.initialize, SpCell.clear, Int.natCast_nonneg]
  · simp [SpCell.incrementCapacity, SpCell.clear, hb]
  · exact iterAppend_le _ (by simpa [SpCell.clear] using hb)
      (by simp [SpCell.clear]) N (by simp [SpCell.clear])
  · simp [SpCell.append, SpCell.clear]

/-- C6 (witness): the capacity discipline at `N = 2`, `begin = 5` on a
concrete cell. -/
theorem spCell_capacity_discipline_witness :
    (5 : ℤ) ≠ 0 ∧
    ∃ cS cI cA : SpCell,
      SpCell.iterIncr (SpCell.clear sampleCell) 2 = some cS ∧
      SpCell.atomCapacity cS = ((2 : ℕ) : ℤ) ∧
      SpCell.initialize cS 5 = some (cI, 5 + ((2 : ℕ) : ℤ)) ∧
      SpCell.atomCapacity cI = ((2 : ℕ) : ℤ) ∧
      SpCell.incrementCapacity cI = none ∧
      SpCell.iterAppend cI 2 = some cA ∧
      SpCell.append cA = none :=
  ⟨by decide, spCell_capacity_discipline sampleCell 2 5 (by decide)⟩

/-! ## C1: kspaceEnergy formula and non-negativity -/

/-- Helper: a left fold accumulating `+ f x` is the sum of the mapped
list. -/
theorem foldl_add_map {α : Type} (f : α → ℚ) (l : List α) (a : ℚ) :
    l.foldl (fun acc x => acc + f x) a = a + (l.map f).sum := by
  induction l generalizing a with
  | nil => simp
  | cons x xs ih =>
      simp only [List.foldl_cons, List.map_cons, List.sum_cons, ih]
      ring

/-- C1: `kspaceEnergy` returns `2 * total` with
`total = 0.5/(ε·V) · Σ g(k)·(Re ρ(k)² + Im ρ(k)²)`, i.e. it equals
`(1/(ε·V)) · Σ g(k)·|ρ(k)|²`; and for positive `ε` and `V` and
non-negative weights it is non-negative for every charge configuration. -/
theorem kspaceEnergy_formula (epsilon volume : ℚ) (gs : List ℚ)
    (rhos : List (ℚ × ℚ)) :
    kspaceEnergy epsilon volume gs rhos =
      1 / (epsilon * volume) *
        ((gs.zip rhos).map (fun p => p.1 * (p.2.1 ^ 2 + p.2.2 ^ 2))).sum ∧
    (0 < epsilon → 0 < volume → (∀ g ∈ gs, 0 ≤ g) →
      0 ≤ kspaceEnergy epsilon volume gs rhos) := by
  have hmap : (gs.zip rhos).map
        (fun p : ℚ × ℚ × ℚ => (p.2.1 * p.2.1 + p.2.2 * p.2.2) * p.1) =
      (gs.zip rhos).map (fun p => p.1 * (p.2.1 ^ 2 + p.2.2 ^ 2)) := by
    apply List.map_congr_left
    intro p _
    ring
  have heq : kspaceEnergy epsilon volume gs rhos =
      1 / (epsilon * volume) *
        ((gs.zip rhos).map (fun p => p.1 * (p.2.1 ^ 2 + p.2.2 ^ 2))).sum := by
    unfold kspaceEnergy
    rw [foldl_add_map (fun p : ℚ × ℚ × ℚ =>
      (p.2.1 * p.2.1 + p.2.2 * p.2.2) * p.1) (gs.zip rhos) 0, hmap]
    ring
  refine ⟨heq, fun he hv hg => ?_⟩
  rw [heq]
  apply mul_nonneg
  · positivity
  · apply List.sum_nonneg
    intro x hx
    rcases List.mem_map.mp hx with ⟨p, hp, rfl⟩
    have hgp : 0 ≤ p.1 := hg p.1 (List.of_mem_zip hp).1
    positivity

/-- C1 (witness): the energy formula and non-negativity at a concrete
configuration. -/
theorem kspaceEnergy_formula_witness :
    (0 : ℚ) < 1 ∧ (0 : ℚ) < 1 ∧ (∀ g ∈ [(2 : ℚ)], 0 ≤ g) ∧
    0 ≤ kspaceEnergy 1 1 [(2 : ℚ)] [((3 : ℚ), (4 : ℚ))] :=
  ⟨by norm_num, by norm_num, by norm_num,
    (kspaceEnergy_formula 1 1 [(2 : ℚ)] [((3 : ℚ), (4 : ℚ))]).2
      (by norm_num) (by norm_num) (by norm_num)⟩

/-! ## C9: makeWaves reserves only on the first invocation -/

/-- C9: the first `makeWaves` invocation (capacity 0) reserves every
array from that call's `maxK` values; every subsequent invocation — here
a second call with arbitrary, possibly larger, `maxK` values — takes the
clearing branch, never re-reserves, and leaves every reserved capacity
exactly as the first call's geometry set it, merely clearing the element
counts before the rebuild appends into the old allocations.  The final
clause shows no later call can reserve again as long as the wave
capacity is non-zero. -/
theorem makeWaves_reserve_first_only (a1 a2 a3 c1 c2 c3 : ℕ)
    (h : 0 < a1) :
    (makeWavesReservePhase a1 a2 a3 EwaldArrays.fresh).2 = true ∧
    (makeWavesReservePhase a1 a2 a3 EwaldArrays.fresh).1.waves.capacity =
      ((2 * a1 + 1) * (2 * a2 + 1) * (2 * a3 + 1) - 1) / 2 ∧
    (makeWavesReservePhase c1 c2 c3
        (makeWavesReservePhase a1 a2 a3 EwaldArrays.fresh).1).2 = false ∧
    (makeWavesReservePhase c1 c2 c3
        (makeWavesReservePhase a1 a2 a3 EwaldArrays.fresh).1).1 =
      { waves := ⟨((2 * a1 + 1) * (2 * a2 + 1) * (2 * a3 + 1) - 1) / 2, 0⟩,
        ksq := ⟨((2 * a1 + 1) * (2 * a2 + 1) * (2 * a3 + 1) - 1) / 2, 0⟩,
        g := ⟨((2 * a1 + 1) * (2 * a2 + 1) * (2 * a3 + 1) - 1) / 2, 0⟩,
        rho := ⟨((2 * a1 + 1) * (2 * a2 + 1) * (2 * a3 + 1) - 1) / 2, 0⟩,
        range1 := ⟨a1 + 1, 0⟩,
        range2 := ⟨(a1 + 1) * (2 * a2 + 1), 0⟩,
        fexp0 := ⟨a1 + 1, 0⟩,
        fexp1 := ⟨2 * a2 + 1, 0⟩,
        fexp2 := ⟨2 * a3 + 1, 0⟩ } ∧
    (∀ (x y z : ℕ) (s : EwaldArrays), s.waves.capacity ≠ 0 →
      (makeWavesReservePhase x y z s).2 = false ∧
      (makeWavesReservePhase x y z s).1.waves.capacity =
        s.waves.capacity) := by
  have hcap : 1 ≤ ((2 * a1 + 1) * (2 * a2 + 1) * (2 * a3 + 1) - 1) / 2 := by
    have h3 : 3 ≤ 2 * a1 + 1 := by omega
    have h1 : 1 ≤ (2 * a2 + 1) * (2 * a3 + 1) := Nat.one_le_iff_ne_zero.mpr (by positivity)
    have : 3 ≤ (2 * a1 + 1) * ((2 * a2 + 1) * (2 * a3 + 1)) :=
      le_trans h3 (Nat.le_mul_of_pos_right _ (by omega))
    have h2 : 2 ≤ (2 * a1 + 1) * (2 * a2 + 1) * (2 * a3 + 1) - 1 := by
      rw [mul_assoc]; omega
    calc 1 = 2 / 2 := rfl
    _ ≤ ((2 * a1 + 1) * (2 * a2 + 1) * (2 * a3 + 1) - 1) / 2 :=
        Nat.div_le_div_right h2
  have hstep1 : makeWavesReservePhase a1 a2 a3 EwaldArrays.fresh =
      ({ waves := ⟨((2 * a1 + 1) * (2 * a2 + 1) * (2 * a3 + 1) - 1) / 2, 0⟩,
         ksq := ⟨((2 * a1 + 1) * (2 * a2 + 1) * (2 * a3 + 1) - 1) / 2, 0⟩,
         g := ⟨((2 * a1 + 1) * (2 * a2 + 1) * (2 * a3 + 1) - 1) / 2, 0⟩,
         rho := ⟨((2 * a1 + 1) * (2 * a2 + 1) * (2 * a3 + 1) - 1) / 2, 0⟩,
         range1 := ⟨a1 + 1, 0⟩,
         range2 := ⟨(a1 + 1) * (2 * a2 + 1), 0⟩,
         fexp0 := ⟨a1 + 1, 0⟩,
         fexp1 := ⟨2 * a2 + 1, 0⟩,
         fexp2 := ⟨2 * a3 + 1, 0⟩ }, true) := by
    simp [makeWavesReservePhase, EwaldArrays.fresh, GArr.reserve]
  have hgen : ∀ (x y z : ℕ) (s : EwaldArrays), s.waves.capacity ≠ 0 →
      (makeWavesReservePhase x y z s).2 = false ∧
      (makeWavesReservePhase x y z s).1.waves.capacity =
        s.waves.capacity := by
    intro x y z s hs
    simp [makeWavesReservePhase, hs, GArr.clear]
  have hne : ((2 * a1 + 1) * (2 * a2 + 1) * (2 * a3 + 1) - 1) / 2 ≠ 0 := by
    omega
  refine ⟨by rw [hstep1], by rw [hstep1], ?_, ?_, hgen⟩
  · rw [hstep1]
    simp [makeWavesReservePhase, hne]
  · rw [hstep1]
    simp [makeWavesReservePhase, hne, GArr.clear]

/-- C9 (witness): the reservation discipline at concrete first-call
`maxK = (1,1,1)` and larger second-call `maxK = (2,2,2)`. -/
theorem makeWaves_reserve_first_only_witness :
    0 < 1 ∧
    ((makeWavesReservePhase 1 1 1 EwaldArrays.fresh).2 = true ∧
     (makeWavesReservePhase 1 1 1 EwaldArrays.fresh).1.waves.capacity =
       ((2 * 1 + 1) * (2 * 1 + 1) * (2 * 1 + 1) - 1) / 2 ∧
     (makeWavesReservePhase 2 2 2
         (makeWavesReservePhase 1 1 1 EwaldArrays.fresh).1).2 = false) := by
  have h := makeWaves_reserve_first_only 1 1 1 2 2 2 (by norm_num)
  exact ⟨by norm_num, h.1, h.2.1, h.2.2.1⟩

/-! ## C3: addKSpaceForces per-particle behavior -/

/-- Helper: unfolding of the `Add Vec3` instance. -/
theorem vec3_add_def (u v : Vec3) :
    u + v = ⟨u.x + v.x, u.y + v.y, u.z + v.z⟩ := rfl

/-- C3: `addKSpaceForces` applies the per-particle body to every particle
of the system; for a particle whose charge magnitude exceeds `1e-10`, the
accumulated generalized k-space force is scaled by
`charge * (-2/(ε·V))`, transformed to Cartesian coordinates via the
reciprocal basis vectors, and added into that particle's force
accumulator; for a particle with charge magnitude at or below `1e-10`
the particle — in particular its force accumulator — is left unchanged. -/
theorem addKSpaceForces_per_particle (cexp : ℚ → Cplx)
    (cartToGen : Vec3 → Vec3) (b0 b1 b2 : Vec3) (epsilon volume : ℚ)
    (base0 base1 base2 : ℤ) (n0 n1 n2 : ℕ) (range0 : ℤ × ℤ)
    (range1 range2 : List (ℤ × ℤ)) (g : List ℚ) (rho : List Cplx)
    (atomTypes : List ℚ) (ps : List EwaldParticle) (p : EwaldParticle) :
    addKSpaceForces cexp cartToGen b0 b1 b2 epsilon volume base0 base1
        base2 n0 n1 n2 range0 range1 range2 g rho atomTypes ps =
      ps.map (addKSpaceForcesAtom cexp cartToGen b0 b1 b2 epsilon volume
        base0 base1 base2 n0 n1 n2 range0 range1 range2 g rho atomTypes) ∧
    (EPS < |chargeOf atomTypes p.typeId| →
      (addKSpaceForcesAtom cexp cartToGen b0 b1 b2 epsilon volume base0
          base1 base2 n0 n1 n2 range0 range1 range2 g rho atomTypes
          p).force =
        p.force +
          (Vec3.smul (chargeOf atomTypes p.typeId * (-2 / (epsilon * volume)) *
              (kspaceGenForce cexp cartToGen base0 base1 base2 n0 n1 n2
                range0 range1 range2 g rho p.position).x) b0 +
            Vec3.smul (chargeOf atomTypes p.typeId * (-2 / (epsilon * volume)) *
              (kspaceGenForce cexp cartToGen base0 base1 base2 n0 n1 n2
                range0 range1 range2 g rho p.position).y) b1 +
            Vec3.smul (chargeOf atomTypes p.typeId * (-2 / (epsilon * volume)) *
              (kspaceGenForce cexp cartToGen base0 base1 base2 n0 n1 n2
                range0 range1 range2 g rho p.position).z) b2)) ∧
    (|chargeOf atomTypes p.typeId| ≤ EPS →
      addKSpaceForcesAtom cexp cartToGen b0 b1 b2 epsilon volume base0
        base1 base2 n0 n1 n2 range0 range1 range2 g rho atomTypes p = p) := by
  refine ⟨rfl, fun h => ?_, fun h => ?_⟩
  · rw [addKSpaceForcesAtom]
    simp only [if_pos h]
    simp only [kspaceGenForce, Vec3.smul, vec3_add_def]
    simp only [Vec3.mk.injEq]
    refine ⟨by ring, by ring, by ring⟩
  · rw [addKSpaceForcesAtom]
    simp only [if_neg (not_lt.mpr h)]

/-- C3 (witness): the per-particle behavior at a concrete charged
particle (charge 1, above the threshold) and a concrete uncharged
particle (missing type, charge 0, below the threshold). -/
theorem addKSpaceForces_per_particle_witness :
    (EPS < |chargeOf [1] 0| ∧
      (addKSpaceForcesAtom (fun x => (1, x)) id ⟨1, 0, 0⟩ ⟨0, 1, 0⟩
          ⟨0, 0, 1⟩ 1 1 0 0 0 0 0 0 (0, -1) [] [] [] [] [1]
          ⟨⟨0, 0, 0⟩, ⟨0, 0, 0⟩, 0⟩).force =
        (⟨⟨0, 0, 0⟩, ⟨0, 0, 0⟩, 0⟩ : EwaldParticle).force +
          (Vec3.smul (chargeOf [1] 0 * (-2 / (1 * 1)) *
              (kspaceGenForce (fun x => (1, x)) id 0 0 0 0 0 0
                (0, -1) [] [] [] [] ⟨0, 0, 0⟩).x) ⟨1, 0, 0⟩ +
            Vec3.smul (chargeOf [1] 0 * (-2 / (1 * 1)) *
              (kspaceGenForce (fun x => (1, x)) id 0 0 0 0 0 0
                (0, -1) [] [] [] [] ⟨0, 0, 0⟩).y) ⟨0, 1, 0⟩ +
            Vec3.smul (chargeOf [1] 0 * (-2 / (1 * 1)) *
              (kspaceGenForce (fun x => (1, x)) id 0 0 0 0 0 0
                (0, -1) [] [] [] [] ⟨0, 0, 0⟩).z) ⟨0, 0, 1⟩)) ∧
    (|chargeOf [1] 1| ≤ EPS ∧
      addKSpaceForcesAtom (fun x => (1, x)) id ⟨1, 0, 0⟩ ⟨0, 1, 0⟩
          ⟨0, 0, 1⟩ 1 1 0 0 0 0 0 0 (0, -1) [] [] [] [] [1]
          ⟨⟨0, 0, 0⟩, ⟨0, 0, 0⟩, 1⟩ = ⟨⟨0, 0, 0⟩, ⟨0, 0, 0⟩, 1⟩) :=
  ⟨⟨by norm_num [EPS, chargeOf],
    (addKSpaceForces_per_particle (fun x => (1, x)) id ⟨1, 0, 0⟩ ⟨0, 1, 0⟩
      ⟨0, 0, 1⟩ 1 1 0 0 0 0 0 0 (0, -1) [] [] [] [] [1] []
      ⟨⟨0, 0, 0⟩, ⟨0, 0, 0⟩, 0⟩).2.1 (by norm_num [EPS, chargeOf])⟩,
   ⟨by norm_num [EPS, chargeOf],
    (addKSpaceForces_per_particle (fun x => (1, x)) id ⟨1, 0, 0⟩ ⟨0, 1, 0⟩
      ⟨0, 0, 1⟩ 1 1 0 0 0 0 0 0 (0, -1) [] [] [] [] [1] []
      ⟨⟨0, 0, 0⟩, ⟨0, 0, 0⟩, 1⟩).2.2 (by norm_num [EPS, chargeOf])⟩⟩

/-! ## C2: makeWaves half-space membership and stored weights -/

/-- Helper: membership in the C++ loop index list `lo..hi`. -/
theorem mem_intRange (lo hi x : ℤ) : x ∈ intRange lo hi ↔ lo ≤ x ∧ x ≤ hi := by
  unfold intRange
  constructor
  · intro hx
    obtain ⟨n, hn, he⟩ := List.mem_map.mp hx
    rw [List.mem_range] at hn
    omega
  · intro h
    apply List.mem_map.mpr
    refine ⟨(x - lo).toNat, ?_, by omega⟩
    rw [List.mem_range]
    omega

/-- C2: a triple lies in the stored wave list iff it lies in the
enumerated index box, satisfies the half-space rule, and has
`ksq = |k·b|² ≤ kCutoff²`; and every stored Green's-function weight
equals `exp(-ksq/(4·alpha²))/ksq` (the code computes the exponent as
`prefactor · ksq` with `prefactor = -0.25/alpha/alpha`, equal for any
non-zero `alpha`). -/
theorem makeWaves_halfspace_membership (eexp : ℚ → ℚ) (alpha : ℚ)
    (b0 b1 b2 : Vec3) (kCutoff : ℚ) (maxK0 maxK1 maxK2 : ℤ)
    (halpha : alpha ≠ 0) :
    (∀ k : Wave,
      k ∈ makeWavesList b0 b1 b2 (kCutoff * kCutoff) maxK0 maxK1 maxK2 ↔
        inBox maxK0 maxK1 maxK2 k ∧ halfSpace k ∧
          ksqOf b0 b1 b2 k.1 k.2.1 k.2.2 ≤ kCutoff * kCutoff) ∧
    makeWavesG eexp alpha b0 b1 b2 (kCutoff * kCutoff) maxK0 maxK1 maxK2 =
      (makeWavesList b0 b1 b2 (kCutoff * kCutoff) maxK0 maxK1 maxK2).map
        (fun k =>
          eexp (-(ksqOf b0 b1 b2 k.1 k.2.1 k.2.2 / (4 * alpha ^ 2))) /
            ksqOf b0 b1 b2 k.1 k.2.1 k.2.2) := by
  constructor
  · intro k
    obtain ⟨k0, k1, k2⟩ := k
    simp only [makeWavesList, keptK2s, List.mem_flatMap, List.mem_map,
      List.mem_filter, mem_intRange, decide_eq_true_eq, Prod.mk.injEq]
    constructor
    · rintro ⟨a, ha, b, hb, c, ⟨hc, hksq⟩, rfl, rfl, rfl⟩
      simp only [mink1] at hb
      simp only [mink2] at hc
      refine ⟨?_, ?_, hksq⟩
      · simp only [inBox]
        split_ifs at hb hc <;> omega
      · simp only [halfSpace]
        split_ifs at hb hc <;> omega
    · rintro ⟨hbox, hhalf, hksq⟩
      simp only [inBox] at hbox
      simp only [halfSpace] at hhalf
      refine ⟨k0, ⟨hbox.1, hbox.2.1⟩, k1, ⟨?_, hbox.2.2.2.1⟩, k2,
        ⟨⟨?_, hbox.2.2.2.2.2⟩, hksq⟩, rfl, rfl, rfl⟩
      · simp only [mink1]
        split_ifs with h
        · exact hhalf.2.1 h
        · omega
      · simp only [mink2]
        split_ifs with h
        · exact hhalf.2.2 h.1 h.2
        · omega
  · unfold makeWavesG
    apply List.map_congr_left
    intro k _
    have harg : -0.25 / alpha / alpha * ksqOf b0 b1 b2 k.1 k.2.1 k.2.2 =
        -(ksqOf b0 b1 b2 k.1 k.2.1 k.2.2 / (4 * alpha ^ 2)) := by
      field_simp
      ring
    simp only [harg]

/-- C2 (witness): the membership characterization and weight formula for
a concrete cubic reciprocal basis, `kCutoff = 2`, `maxK = (1,1,1)` and
`alpha = 1`. -/
theorem makeWaves_halfspace_membership_witness :
    (1 : ℚ) ≠ 0 ∧
    ((∀ k : Wave,
      k ∈ makeWavesList ⟨1, 0, 0⟩ ⟨0, 1, 0⟩ ⟨0, 0, 1⟩ (2 * 2) 1 1 1 ↔
        inBox 1 1 1 k ∧ halfSpace k ∧
          ksqOf ⟨1, 0, 0⟩ ⟨0, 1, 0⟩ ⟨0, 0, 1⟩ k.1 k.2.1 k.2.2 ≤ 2 * 2) ∧
    makeWavesG id 1 ⟨1, 0, 0⟩ ⟨0, 1, 0⟩ ⟨0, 0, 1⟩ (2 * 2) 1 1 1 =
      (makeWavesList ⟨1, 0, 0⟩ ⟨0, 1, 0⟩ ⟨0, 0, 1⟩ (2 * 2) 1 1 1).map
        (fun k =>
          id (-(ksqOf ⟨1, 0, 0⟩ ⟨0, 1, 0⟩ ⟨0, 0, 1⟩ k.1 k.2.1 k.2.2 /
              (4 * 1 ^ 2))) /
            ksqOf ⟨1, 0, 0⟩ ⟨0, 1, 0⟩ ⟨0, 0, 1⟩ k.1 k.2.1 k.2.2)) :=
  ⟨by norm_num,
    makeWaves_halfspace_membership id 1 ⟨1, 0, 0⟩ ⟨0, 1, 0⟩ ⟨0, 0, 1⟩ 2
      1 1 1 (by norm_num)⟩

/-! ## C8: the wave-bound consistency check never fires -/

/-- Helper: updating the last element of a non-empty snoc list. -/
theorem updateLast_concat {α : Type} (f : α → α) (l : List α) (x : α) :
    updateLast f (l ++ [x]) = l ++ [f x] := by
  induction l with
  | nil => rfl
  | cons a t ih =>
      cases t with
      | nil => rfl
      | cons b t2 => simpa [updateLast] using ih

/-- Helper: `getLastD` of a cons, phrased on `getLast?.getD`. -/
theorem getD_getLast?_cons (rest : List ℤ) :
    ∀ c d : ℤ, (c :: rest).getLast?.getD d = rest.getLast?.getD c := by
  induction rest with
  | nil => intro c d; rfl
  | cons b t ih =>
      intro c d
      rw [List.getLast?_cons_cons, ih b d, ih b c]

/-- Helper: `lastSnd` of a snoc list. -/
theorem lastSnd_concat (l : List (ℤ × ℤ)) (p : ℤ × ℤ) :
    lastSnd (l ++ [p]) = p.2 := by
  simp [lastSnd, List.getLast?_concat]

/-- Helper: processing the remaining waves of one `(k0,k1)` group, the
range-finding loop keeps taking the third branch and only pushes up the
upper bound of the current `range2_` interval. -/
theorem rangeStep_sameGroup (a bb : ℤ) (k2s : List ℤ) :
    ∀ (r1 t : List (ℤ × ℤ)) (c d : ℤ), lastSnd r1 = bb →
      (k2s.map (fun c2 => (a, bb, c2))).foldl rangeStep
          ⟨a, r1, t ++ [(c, d)]⟩ =
        ⟨a, r1, t ++ [(c, k2s.getLastD d)]⟩ := by
  induction k2s with
  | nil => intro r1 t c d _; rfl
  | cons c2 rest ih =>
      intro r1 t c d hr1
      have hstep : rangeStep ⟨a, r1, t ++ [(c, d)]⟩ (a, bb, c2) =
          ⟨a, r1, t ++ [(c, c2)]⟩ := by
        rw [rangeStep]
        simp only [lt_irrefl, if_false, hr1, if_neg (lt_irrefl bb)]
        rw [updateLast_concat]
      simp only [List.map_cons, List.foldl_cons, hstep, ih r1 t c c2 hr1,
        List.getLastD_cons]

/-- Helper: processing one whole non-empty `(k0,k1)` group from a state
strictly lexicographically below its key appends exactly one `range2_`
interval, from the group's first kept `k2` to its last. -/
theorem rangeStep_group (a bb : ℤ) (k2s : List ℤ) (hne : k2s ≠ [])
    (s : RangeState)
    (hstart : s.r0hi < a ∨ (s.r0hi = a ∧ s.r1 ≠ [] ∧ lastSnd s.r1 < bb)) :
    ∃ r1f : List (ℤ × ℤ), r1f ≠ [] ∧ lastSnd r1f = bb ∧
      (groupWaves (a, bb, k2s)).foldl rangeStep s =
        ⟨a, r1f, s.r2 ++ [(k2s.headD 0, k2s.getLastD 0)]⟩ := by
  cases k2s with
  | nil => exact absurd rfl hne
  | cons c rest =>
      rcases hstart with h | ⟨heq, hne1, hlt⟩
      · refine ⟨s.r1 ++ [(bb, bb)], by simp, lastSnd_concat _ _, ?_⟩
        have hstep : rangeStep s (a, bb, c) =
            ⟨a, s.r1 ++ [(bb, bb)], s.r2 ++ [(c, c)]⟩ := by
          rw [rangeStep]
          simp only [if_pos h]
        simp only [groupWaves, List.map_cons, List.foldl_cons, hstep]
        rw [rangeStep_sameGroup a bb rest (s.r1 ++ [(bb, bb)]) s.r2 c c
          (lastSnd_concat _ _)]
        simp [getD_getLast?_cons]
      · rcases List.eq_nil_or_concat s.r1 with h1 | ⟨L, x, h1⟩
        · exact absurd h1 hne1
        · rw [List.concat_eq_append] at h1
          refine ⟨L ++ [(x.1, bb)], by simp, lastSnd_concat _ _, ?_⟩
          have hstep : rangeStep s (a, bb, c) =
              ⟨a, L ++ [(x.1, bb)], s.r2 ++ [(c, c)]⟩ := by
            rw [rangeStep]
            simp only [heq, lt_irrefl, if_false, if_pos hlt]
            rw [h1, updateLast_concat]
          simp only [groupWaves, List.map_cons, List.foldl_cons, hstep]
          rw [rangeStep_sameGroup a bb rest (L ++ [(x.1, bb)]) s.r2 c c
            (lastSnd_concat _ _)]
          simp [getD_getLast?_cons]

/-- Helper: processing a list of non-empty groups with strictly
lexicographically increasing keys, starting strictly below every key,
appends one `range2_` interval per group, spanning that group's kept
`k2` run. -/
theorem rangeStep_groups (gs : List (ℤ × ℤ × List ℤ)) :
    ∀ s : RangeState,
      (∀ t ∈ gs, t.2.2 ≠ []) →
      gs.Pairwise lexLtKey →
      (∀ t ∈ gs, s.r0hi < t.1 ∨
        (s.r0hi = t.1 ∧ s.r1 ≠ [] ∧ lastSnd s.r1 < t.2.1)) →
      ((gs.map groupWaves).flatten.foldl rangeStep s).r2 =
        s.r2 ++ gs.map (fun t => (t.2.2.headD 0, t.2.2.getLastD 0)) := by
  induction gs with
  | nil => intro s _ _ _; simp
  | cons g gs ih =>
      intro s hne hsort hstart
      have hg := rangeStep_group g.1 g.2.1 g.2.2
        (hne g (List.mem_cons_self g gs)) s (hstart g (List.mem_cons_self g gs))
      rcases hg with ⟨r1f, hr1f, hlast, hrun⟩
      have hsplit : ((g :: gs).map groupWaves).flatten = groupWaves g ++
          (gs.map groupWaves).flatten := by simp
      rw [hsplit, List.foldl_append, hrun]
      have hstart2 : ∀ t ∈ gs,
          (RangeState.mk g.1 r1f (s.r2 ++ [(g.2.2.headD 0, g.2.2.getLastD 0)])).r0hi < t.1 ∨
          ((RangeState.mk g.1 r1f (s.r2 ++ [(g.2.2.headD 0, g.2.2.getLastD 0)])).r0hi = t.1 ∧
            (RangeState.mk g.1 r1f (s.r2 ++ [(g.2.2.headD 0, g.2.2.getLastD 0)])).r1 ≠ [] ∧
            lastSnd (RangeState.mk g.1 r1f (s.r2 ++ [(g.2.2.headD 0, g.2.2.getLastD 0)])).r1 < t.2.1) := by
        intro t ht
        have hlex : lexLtKey g t := (List.pairwise_cons.mp hsort).1 t ht
        rcases hlex with h | ⟨h1, h2⟩
        · exact Or.inl h
        · exact Or.inr ⟨h1, hr1f, by rw [hlast]; exact h2⟩
      rw [ih _ (fun t ht => hne t (List.mem_cons_of_mem g ht))
        (List.pairwise_cons.mp hsort).2 hstart2]
      simp

/-- Helper: the default-valued last element of a non-empty list is a
member. -/
theorem getLastD_mem (l : List ℤ) : ∀ d : ℤ, l ≠ [] → l.getLastD d ∈ l := by
  induction l with
  | nil => intro d h; exact absurd rfl h
  | cons a t ih =>
      intro d _
      rw [List.getLastD_cons]
      cases t with
      | nil => simp [List.getLastD]
      | cons b t2 => exact List.mem_cons_of_mem a (ih a (by simp))

/-- Helper: the head of a strictly sorted list is a lower bound. -/
theorem sorted_headD_le (l : List ℤ) (hs : l.Pairwise (· < ·)) :
    ∀ x ∈ l, l.headD 0 ≤ x := by
  cases l with
  | nil => intro x hx; cases hx
  | cons a t =>
      intro x hx
      rcases List.mem_cons.mp hx with rfl | hx
      · simp
      · exact le_of_lt ((List.pairwise_cons.mp hs).1 x hx)

/-- Helper: the last element of a strictly sorted list is an upper
bound. -/
theorem sorted_le_getLastD (l : List ℤ) :
    l.Pairwise (· < ·) → ∀ x ∈ l, ∀ d : ℤ, x ≤ l.getLastD d := by
  induction l with
  | nil => intro _ x hx; cases hx
  | cons a t ih =>
      intro hs x hx d
      rw [List.getLastD_cons]
      rcases List.mem_cons.mp hx with rfl | hx
      · cases t with
        | nil => simp [List.getLastD]
        | cons b t2 =>
            have hmem : (b :: t2).getLastD x ∈ b :: t2 :=
              getLastD_mem _ x (by simp)
            exact le_of_lt ((List.pairwise_cons.mp hs).1 _ hmem)
      · exact ih (List.pairwise_cons.mp hs).2 x hx a

/-- Helper: two strictly sorted integer lists with the same members are
equal. -/
theorem sorted_eq_of_mem_iff (l1 : List ℤ) :
    ∀ l2 : List ℤ, l1.Pairwise (· < ·) → l2.Pairwise (· < ·) →
      (∀ x, x ∈ l1 ↔ x ∈ l2) → l1 = l2 := by
  induction l1 with
  | nil =>
      intro l2 _ _ hm
      cases l2 with
      | nil => rfl
      | cons b t =>
          exact absurd ((hm b).mpr (List.mem_cons_self b t))
            (List.not_mem_nil b)
  | cons a t ih =>
      intro l2 h1 h2 hm
      cases l2 with
      | nil =>
          exact absurd ((hm a).mp (List.mem_cons_self a t))
            (List.not_mem_nil a)
      | cons b t2 =>
          have hab : a = b := by
            rcases List.mem_cons.mp ((hm a).mp (List.mem_cons_self a t))
              with h | h
            · exact h
            · rcases List.mem_cons.mp ((hm b).mpr (List.mem_cons_self b t2))
                with h' | h'
              · exact h'.symm
              · exact absurd (lt_trans ((List.pairwise_cons.mp h2).1 a h)
                  ((List.pairwise_cons.mp h1).1 b h')) (lt_irrefl b)
          subst hab
          have htails : t = t2 := by
            apply ih t2 (List.pairwise_cons.mp h1).2
              (List.pairwise_cons.mp h2).2
            intro x
            constructor
            · intro hx
              rcases List.mem_cons.mp
                  ((hm x).mp (List.mem_cons_of_mem a hx)) with rfl | h
              · exact absurd ((List.pairwise_cons.mp h1).1 x hx)
                  (lt_irrefl x)
              · exact h
            · intro hx
              rcases List.mem_cons.mp
                  ((hm x).mpr (List.mem_cons_of_mem a hx)) with rfl | h
              · exact absurd ((List.pairwise_cons.mp h2).1 x hx)
                  (lt_irrefl x)
              · exact h
          rw [htails]

/-- Helper: the loop index list is strictly sorted. -/
theorem pairwise_lt_intRange (lo hi : ℤ) :
    (intRange lo hi).Pairwise (· < ·) := by
  unfold intRange
  exact List.Pairwise.map _ (fun a b h => by omega)
    (List.pairwise_lt_range _)

/-- Helper: filtering the loop index list with a convex predicate yields
a contiguous run, whose element count equals last minus head plus one. -/
theorem filter_convex_run (p : ℤ → Bool) (lo hi : ℤ)
    (hconv : ∀ x y z : ℤ, x ≤ y → y ≤ z → p x = true → p z = true →
      p y = true)
    (hne : (intRange lo hi).filter p ≠ []) :
    ((intRange lo hi).filter p).getLastD 0 -
        ((intRange lo hi).filter p).headD 0 + 1 =
      (((intRange lo hi).filter p).length : ℤ) := by
  set l := (intRange lo hi).filter p with hl
  have hsort : l.Pairwise (· < ·) :=
    List.Pairwise.filter p (pairwise_lt_intRange lo hi)
  have hmem : ∀ x, x ∈ l ↔ (lo ≤ x ∧ x ≤ hi) ∧ p x = true := by
    intro x
    rw [hl, List.mem_filter, mem_intRange]
  have hAmem : l.headD 0 ∈ l := by
    obtain ⟨a, t, hat⟩ := List.exists_cons_of_ne_nil hne
    rw [hl] at hat ⊢
    rw [hat]
    exact List.mem_cons_self a t
  have hBmem : l.getLastD 0 ∈ l := getLastD_mem l 0 (by rw [hl] at hne ⊢; exact hne)
  have hAle : ∀ x ∈ l, l.headD 0 ≤ x := sorted_headD_le l hsort
  have hleB : ∀ x ∈ l, x ≤ l.getLastD 0 := fun x hx =>
    sorted_le_getLastD l hsort x hx 0
  have hmem2 : ∀ x, x ∈ l ↔ l.headD 0 ≤ x ∧ x ≤ l.getLastD 0 := by
    intro x
    constructor
    · intro hx
      exact ⟨hAle x hx, hleB x hx⟩
    · intro ⟨h1, h2⟩
      have hA := (hmem _).mp hAmem
      have hB := (hmem _).mp hBmem
      refine (hmem x).mpr ⟨⟨le_trans hA.1.1 h1, le_trans h2 hB.1.2⟩, ?_⟩
      exact hconv _ x _ h1 h2 hA.2 hB.2
  have hrun : l = intRange (l.headD 0) (l.getLastD 0) := by
    apply sorted_eq_of_mem_iff l _ hsort (pairwise_lt_intRange _ _)
    intro x
    rw [hmem2 x, mem_intRange]
  have hAB : l.headD 0 ≤ l.getLastD 0 := hAle _ hBmem
  have hlen : l.length = (l.getLastD 0 + 1 - l.headD 0).toNat := by
    conv_lhs => rw [hrun]
    simp [intRange]
  rw [hlen]
  omega

/-- Helper: as a function of the inner index `k2`, `ksq` is a quadratic
with non-negative leading coefficient `|b2|²`. -/
theorem ksqOf_quadratic (b0 b1 b2 : Vec3) (k0 k1 k2 : ℤ) :
    ksqOf b0 b1 b2 k0 k1 k2 =
      b2.square * (k2 : ℚ) ^ 2 +
        (2 * (((Vec3.smul (k0 : ℚ) b0).add (Vec3.smul (k1 : ℚ) b1)).dot b2)) *
          (k2 : ℚ) +
        ((Vec3.smul (k0 : ℚ) b0).add (Vec3.smul (k1 : ℚ) b1)).square := by
  simp only [ksqOf, Vec3.square, Vec3.dot, Vec3.add, Vec3.smul]
  ring

/-- Helper: a squared vector magnitude is non-negative. -/
theorem vec3_square_nonneg (v : Vec3) : 0 ≤ v.square := by
  simp only [Vec3.square, Vec3.dot]
  have hx := mul_self_nonneg v.x
  have hy := mul_self_nonneg v.y
  have hz := mul_self_nonneg v.z
  linarith

/-- Helper: sublevel sets of a quadratic with non-negative leading
coefficient are convex. -/
theorem quad_convex (A B c x y z : ℚ) (hA : 0 ≤ A) (hxy : x ≤ y)
    (hyz : y ≤ z) (hx : A * x ^ 2 + B * x ≤ c) (hz : A * z ^ 2 + B * z ≤ c) :
    A * y ^ 2 + B * y ≤ c := by
  rcases eq_or_lt_of_le (le_trans hxy hyz) with heq | hlt
  · have hxy' : x = y := le_antisymm hxy (heq ▸ hyz)
    rw [← hxy']
    exact hx
  · have key : (A * y ^ 2 + B * y) * (z - x) ≤ c * (z - x) := by
      nlinarith [mul_le_mul_of_nonneg_right hx (sub_nonneg.mpr hyz),
        mul_le_mul_of_nonneg_right hz (sub_nonneg.mpr hxy),
        mul_nonneg (mul_nonneg hA (sub_nonneg.mpr hyz))
          (mul_nonneg (sub_nonneg.mpr hxy) (sub_nonneg.mpr hlt.le))]
    exact le_of_mul_le_mul_right key (sub_pos.mpr hlt)

/-- Helper: the cutoff test of the inner wave loop is convex in `k2`. -/
theorem keptK2s_pred_convex (b0 b1 b2 : Vec3) (kCutoffSq : ℚ) (k0 k1 : ℤ)
    (x y z : ℤ) (hxy : x ≤ y) (hyz : y ≤ z)
    (hx : ksqOf b0 b1 b2 k0 k1 x ≤ kCutoffSq)
    (hz : ksqOf b0 b1 b2 k0 k1 z ≤ kCutoffSq) :
    ksqOf b0 b1 b2 k0 k1 y ≤ kCutoffSq := by
  rw [ksqOf_quadratic] at hx hz ⊢
  have hxq : (x : ℚ) ≤ (y : ℚ) := Int.cast_le.mpr hxy
  have hyq : (y : ℚ) ≤ (z : ℚ) := Int.cast_le.mpr hyz
  have h := quad_convex b2.square
    (2 * (((Vec3.smul (k0 : ℚ) b0).add (Vec3.smul (k1 : ℚ) b1)).dot b2))
    (kCutoffSq -
      ((Vec3.smul (k0 : ℚ) b0).add (Vec3.smul (k1 : ℚ) b1)).square)
    (x : ℚ) (y : ℚ) (z : ℚ) (vec3_square_nonneg b2) hxq hyq
    (by linarith) (by linarith)
  linarith

/-- Helper: each non-empty kept `k2` run is contiguous: its element count
is last minus head plus one. -/
theorem keptK2s_run (b0 b1 b2 : Vec3) (kCutoffSq : ℚ) (maxK2 : ℤ)
    (k0 k1 : ℤ) (hne : keptK2s b0 b1 b2 kCutoffSq maxK2 k0 k1 ≠ []) :
    (keptK2s b0 b1 b2 kCutoffSq maxK2 k0 k1).getLastD 0 -
        (keptK2s b0 b1 b2 kCutoffSq maxK2 k0 k1).headD 0 + 1 =
      ((keptK2s b0 b1 b2 kCutoffSq maxK2 k0 k1).length : ℤ) := by
  apply filter_convex_run
  · intro x y z hxy hyz hx hz
    rw [decide_eq_true_eq] at hx hz ⊢
    exact keptK2s_pred_convex b0 b1 b2 kCutoffSq k0 k1 x y z hxy hyz hx hz
  · exact hne

/-- Helper: dropping empty sublists before flattening changes nothing. -/
theorem flatten_map_filter {α β : Type} (g : α → List β) (l : List α) :
    ((l.filter (fun a => !(g a).isEmpty)).map g).flatten =
      (l.map g).flatten := by
  induction l with
  | nil => rfl
  | cons a t ih =>
      by_cases h : (g a).isEmpty
      · have hnil : g a = [] := by
          cases hga : g a with
          | nil => rfl
          | cons x xs => rw [hga] at h; simp [List.isEmpty] at h
        simp [List.filter_cons, h, hnil, ih]
      · simp [List.filter_cons, h, ih]

/-- Helper: the wave list is the concatenation of the non-empty
`(k0,k1)` groups in enumeration order. -/
theorem makeWavesList_eq_groups (b0 b1 b2 : Vec3) (kc : ℚ)
    (maxK0 maxK1 maxK2 : ℤ) :
    makeWavesList b0 b1 b2 kc maxK0 maxK1 maxK2 =
      ((groupsOf b0 b1 b2 kc maxK0 maxK1 maxK2).map groupWaves).flatten := by
  unfold groupsOf
  rw [List.filter_map]
  have hpred : ∀ p : ℤ × ℤ,
      ((fun t : ℤ × ℤ × List ℤ => !t.2.2.isEmpty) ∘
        (fun p : ℤ × ℤ =>
          (p.1, p.2, keptK2s b0 b1 b2 kc maxK2 p.1 p.2))) p =
      !((groupWaves ∘ (fun p : ℤ × ℤ =>
          (p.1, p.2, keptK2s b0 b1 b2 kc maxK2 p.1 p.2))) p).isEmpty := by
    intro p
    simp only [Function.comp_apply, groupWaves]
    cases keptK2s b0 b1 b2 kc maxK2 p.1 p.2 with
    | nil => rfl
    | cons x xs => rfl
  rw [List.filter_congr (fun p _ => hpred p), List.map_map,
    flatten_map_filter]
  show makeWavesList b0 b1 b2 kc maxK0 maxK1 maxK2 =
    (pairList maxK0 maxK1).flatMap
      (fun p => groupWaves (p.1, p.2, keptK2s b0 b1 b2 kc maxK2 p.1 p.2))
  unfold makeWavesList pairList
  rw [List.flatMap_assoc]
  simp only [List.flatMap_map, groupWaves]

/-- Helper: pairwise relation over a `flatMap`. -/
theorem pairwise_flatMap {α β : Type} {S : α → α → Prop} {R : β → β → Prop}
    (l : List α) (f : α → List β) (hl : l.Pairwise S)
    (hf : ∀ a ∈ l, (f a).Pairwise R)
    (hcross : ∀ a b, S a b → ∀ x ∈ f a, ∀ y ∈ f b, R x y) :
    (l.flatMap f).Pairwise R := by
  induction l with
  | nil => simp
  | cons a t ih =>
      have hsplit : (a :: t).flatMap f = f a ++ t.flatMap f := rfl
      rw [hsplit, List.pairwise_append]
      refine ⟨hf a (List.mem_cons_self a t),
        ih (List.pairwise_cons.mp hl).2
          (fun b hb => hf b (List.mem_cons_of_mem _ hb)), ?_⟩
      intro x hx y hy
      obtain ⟨b, hb, hyb⟩ := List.mem_flatMap.mp hy
      exact hcross a b ((List.pairwise_cons.mp hl).1 b hb) x hx y hyb

/-- Helper: the `(k0,k1)` pairs are enumerated in strictly increasing
lexicographic order. -/
theorem pairwise_pairList (maxK0 maxK1 : ℤ) :
    (pairList maxK0 maxK1).Pairwise lexPair := by
  unfold pairList
  apply pairwise_flatMap _ _ (pairwise_lt_intRange 0 maxK0)
  · intro k0 _
    exact List.Pairwise.map _ (fun a b h => Or.inr ⟨rfl, h⟩)
      (pairwise_lt_intRange _ maxK1)
  · intro a b hab x hx y hy
    obtain ⟨k1, _, rfl⟩ := List.mem_map.mp hx
    obtain ⟨k1', _, rfl⟩ := List.mem_map.mp hy
    exact Or.inl hab

/-- Helper: the non-empty groups carry strictly increasing keys. -/
theorem pairwise_groupsOf (b0 b1 b2 : Vec3) (kc : ℚ)
    (maxK0 maxK1 maxK2 : ℤ) :
    (groupsOf b0 b1 b2 kc maxK0 maxK1 maxK2).Pairwise lexLtKey := by
  unfold groupsOf
  apply List.Pairwise.filter
  exact List.Pairwise.map _ (fun p q h => h)
    (pairwise_pairList maxK0 maxK1)

/-- Helper: structure of a member of `groupsOf`: its run is the kept
`k2` list for its key, is non-empty, and its first key is non-negative. -/
theorem groupsOf_mem (b0 b1 b2 : Vec3) (kc : ℚ) (maxK0 maxK1 maxK2 : ℤ)
    (t : ℤ × ℤ × List ℤ) (ht : t ∈ groupsOf b0 b1 b2 kc maxK0 maxK1 maxK2) :
    t.2.2 = keptK2s b0 b1 b2 kc maxK2 t.1 t.2.1 ∧ t.2.2 ≠ [] ∧ 0 ≤ t.1 := by
  unfold groupsOf at ht
  obtain ⟨ht1, ht2⟩ := List.mem_filter.mp ht
  obtain ⟨p, hp, rfl⟩ := List.mem_map.mp ht1
  refine ⟨rfl, ?_, ?_⟩
  · intro hnil
    have hk : keptK2s b0 b1 b2 kc maxK2 p.1 p.2 = [] := hnil
    rw [hk] at ht2
    simp [List.isEmpty] at ht2
  · unfold pairList at hp
    obtain ⟨k0, hk0, hpmem⟩ := List.mem_flatMap.mp hp
    obtain ⟨k1, _, rfl⟩ := List.mem_map.mp hpmem
    exact ((mem_intRange 0 maxK0 k0).mp hk0).1

/-- C8: at the end of `makeWaves`, the sum over all `range2_` intervals
of `upper - lower + 1` always equals the number of generated waves, so
the fatal "Wave bounds incompatible" branch — taken if and only if that
sum differs from the wave count — is never reached: `makeWavesChecked`
always returns the generated waves and ranges. -/
theorem makeWaves_bound_check (b0 b1 b2 : Vec3) (kc : ℚ)
    (maxK0 maxK1 maxK2 : ℤ) :
    nItems (rangesOf (makeWavesList b0 b1 b2 kc maxK0 maxK1 maxK2)) =
      ((makeWavesList b0 b1 b2 kc maxK0 maxK1 maxK2).length : ℤ) ∧
    makeWavesChecked b0 b1 b2 kc maxK0 maxK1 maxK2 =
      Except.ok (makeWavesList b0 b1 b2 kc maxK0 maxK1 maxK2,
        rangesOf (makeWavesList b0 b1 b2 kc maxK0 maxK1 maxK2)) := by
  have hws : makeWavesList b0 b1 b2 kc maxK0 maxK1 maxK2 =
      ((groupsOf b0 b1 b2 kc maxK0 maxK1 maxK2).map groupWaves).flatten :=
    makeWavesList_eq_groups b0 b1 b2 kc maxK0 maxK1 maxK2
  have hne : ∀ t ∈ groupsOf b0 b1 b2 kc maxK0 maxK1 maxK2, t.2.2 ≠ [] :=
    fun t ht => (groupsOf_mem b0 b1 b2 kc maxK0 maxK1 maxK2 t ht).2.1
  have hsort : (groupsOf b0 b1 b2 kc maxK0 maxK1 maxK2).Pairwise lexLtKey :=
    pairwise_groupsOf b0 b1 b2 kc maxK0 maxK1 maxK2
  have hstart : ∀ t ∈ groupsOf b0 b1 b2 kc maxK0 maxK1 maxK2,
      rangeInit.r0hi < t.1 ∨
        (rangeInit.r0hi = t.1 ∧ rangeInit.r1 ≠ [] ∧
          lastSnd rangeInit.r1 < t.2.1) := by
    intro t ht
    left
    have h0 := (groupsOf_mem b0 b1 b2 kc maxK0 maxK1 maxK2 t ht).2.2
    show (-1 : ℤ) < t.1
    omega
  have hr2 : (rangesOf (makeWavesList b0 b1 b2 kc maxK0 maxK1 maxK2)).r2 =
      (groupsOf b0 b1 b2 kc maxK0 maxK1 maxK2).map
        (fun t => (t.2.2.headD 0, t.2.2.getLastD 0)) := by
    rw [rangesOf, hws]
    rw [rangeStep_groups (groupsOf b0 b1 b2 kc maxK0 maxK1 maxK2) rangeInit
      hne hsort hstart]
    rfl
  have hmain : nItems (rangesOf (makeWavesList b0 b1 b2 kc maxK0 maxK1 maxK2)) =
      ((makeWavesList b0 b1 b2 kc maxK0 maxK1 maxK2).length : ℤ) := by
    rw [nItems, hr2, List.map_map]
    have hcongr : (groupsOf b0 b1 b2 kc maxK0 maxK1 maxK2).map
          ((fun p : ℤ × ℤ => p.2 - p.1 + 1) ∘
            (fun t : ℤ × ℤ × List ℤ => (t.2.2.headD 0, t.2.2.getLastD 0))) =
        (groupsOf b0 b1 b2 kc maxK0 maxK1 maxK2).map
          (fun t => (t.2.2.length : ℤ)) := by
      apply List.map_congr_left
      intro t ht
      obtain ⟨hkept, htne, _⟩ := groupsOf_mem b0 b1 b2 kc maxK0 maxK1 maxK2 t ht
      show t.2.2.getLastD 0 - t.2.2.headD 0 + 1 = (t.2.2.length : ℤ)
      rw [hkept]
      exact keptK2s_run b0 b1 b2 kc maxK2 t.1 t.2.1 (hkept ▸ htne)
    rw [hcongr, hws, List.length_flatten, List.map_map]
    have hlen2 : (groupsOf b0 b1 b2 kc maxK0 maxK1 maxK2).map
          (List.length ∘ groupWaves) =
        (groupsOf b0 b1 b2 kc maxK0 maxK1 maxK2).map
          (fun t => t.2.2.length) := by
      apply List.map_congr_left
      intro t _
      show (groupWaves t).length = t.2.2.length
      simp [groupWaves]
    rw [hlen2, Nat.cast_list_sum, List.map_map]
    rfl
  refine ⟨hmain, ?_⟩
  have hcond : ¬(nItems (rangesOf (makeWavesList b0 b1 b2 kc maxK0 maxK1 maxK2)) ≠
      ((makeWavesList b0 b1 b2 kc maxK0 maxK1 maxK2).length : ℤ)) :=
    fun hcontra => hcontra hmain
  show (if nItems (rangesOf (makeWavesList b0 b1 b2 kc maxK0 maxK1 maxK2)) ≠
      ((makeWavesList b0 b1 b2 kc maxK0 maxK1 maxK2).length : ℤ) then
        Except.error
          "Wave bounds incompatible with number of waves constructed."
      else
        Except.ok (makeWavesList b0 b1 b2 kc maxK0 maxK1 maxK2,
          rangesOf (makeWavesList b0 b1 b2 kc maxK0 maxK1 maxK2))) =
    Except.ok (makeWavesList b0 b1 b2 kc maxK0 maxK1 maxK2,
      rangesOf (makeWavesList b0 b1 b2 kc maxK0 maxK1 maxK2))
  rw [if_neg hcond]

end Simpatico
